import Mathlib

/-!
# Verification of the Scrabble Hold'em server against its specification

This development shallowly embeds the game logic of the Scrabble Hold'em
server (`src/server.js`) and the client-side best-word search
(`src/public/bestWordWorker.js`) and proves or refutes the frozen claims
about it.

Conventions of the embedding:
* JavaScript numbers that hold integers are modelled as `Int`
  (scores, points, timers) or `Nat` (lengths, indices, round numbers).
* JavaScript strings that take part in comparisons are modelled as
  `List Char`; the `<` of JavaScript strings is modelled by `jsLtChars`,
  the code-unit lexicographic order.
* `Map` objects are modelled as association lists in insertion order;
  `Map.set` keeps the position of an existing key, which `setAssoc`
  reproduces.
* Asynchronous external services (the dictionary file, the word-proposal
  oracle) are parameters: the dictionary is a list of uppercase words,
  the oracle is a function from the attempt number to an optional parsed
  candidate.
-/

namespace ScrabbleHoldem

/-! ## Generic helpers -/

/-- The `<` comparison of JavaScript strings (code-unit lexicographic order,
a proper prefix being smaller), on lists of characters. -/
def jsLtChars : List Char → List Char → Bool
  | [], [] => false
  | [], _ :: _ => true
  | _ :: _, [] => false
  | a :: as, b :: bs =>
    if a.toNat < b.toNat then true
    else if b.toNat < a.toNat then false
    else jsLtChars as bs

/-- Uppercase vowels, as tested by `'AEIOU'.includes` in the worker. -/
def isVowelChar (c : Char) : Bool := c ∈ ['A', 'E', 'I', 'O', 'U']

/-- JavaScript truthiness of an optional number used as a guard
(`undefined` and `0` are falsy). -/
def truthyNat : Option Nat → Bool
  | none => false
  | some k => k ≠ 0

/-! ## The scoring engine of `bestWordWorker.js`

`scoreSequence` maps an ordered tile sequence and the round's modifier to a
numeric score.  A worker tile carries the uppercase letters of the die, its
letter length (digraphs such as `Qu` count as two), its point value and its
origin (`community` slot `index`, or a player die). -/

inductive MType
  | multiply | mposition | mlength | mparity | mneighbor | mcomposition | mbonus
  deriving DecidableEq, Repr

inductive MPos
  | pstart | pend | pmiddle | psecond | ppenultimate | pcenter | pcenterAny
  deriving DecidableEq, Repr

inductive MParity
  | podd | peven
  deriving DecidableEq, Repr

inductive MComp
  | balanced | vowelRich | vowelCount | consonantCount
  deriving DecidableEq, Repr

/-- A round modifier (`MODIFIERS` entry plus its `dieIndex`).  Absent
type-specific parameters are `none`. -/
structure Modifier where
  mname : List Char := []
  desc : List Char := []
  mtype : MType
  multiplier : Int := 1
  mpos : Option MPos := none
  minLength : Option Nat := none
  exactLength : Option Nat := none
  maxLength : Option Nat := none
  mparity : Option MParity := none
  compType : Option MComp := none
  minVowels : Option Nat := none
  minConsonants : Option Nat := none
  bonus : Option Int := none
  dieIndex : Nat
  deriving DecidableEq, Repr

/-- A tile as prepared by `computeBestWord`: uppercase letters, letter
length, points and origin. -/
structure WTile where
  lUpper : List Char
  letterLength : Nat
  points : Int
  isPlayer : Bool
  index : Nat
  deriving DecidableEq, Repr

/-- Total letter count of a sequence (digraphs weigh their full length). -/
def sumLetterLen (l : List WTile) : Nat := (l.map (·.letterLength)).sum

/-- The predicate selecting the modifier's community tile
(`tile.source === 'community' && tile.index === modifier.dieIndex`). -/
def isModTile (d : Nat) (t : WTile) : Bool := !t.isPlayer && t.index == d

/-- The modifier condition evaluation of `scoreSequence` for a selected
modifier tile at position `k`: returns
`(modifierApplies, modifierMultiplier, modifierBonusPoints)`. -/
def modifierEffect (m : Modifier) (sequence : List WTile) (k : Nat) : Bool × Int × Int :=
  let letterCount := sumLetterLen sequence
  let modifierLetterPos := sumLetterLen (sequence.take k)
  let modTile := sequence.getD k ⟨[], 0, 0, false, 0⟩
  let modTileLen := modTile.letterLength
  let tileContains : Nat → Bool := fun target =>
    decide (modifierLetterPos ≤ target) && decide (target < modifierLetterPos + modTileLen)
  match m.mtype with
  | .multiply => (true, m.multiplier, 0)
  | .mposition =>
    let applies :=
      match m.mpos with
      | some .pstart => modifierLetterPos == 0
      | some .pend => modifierLetterPos + modTileLen == letterCount
      | some .pmiddle => decide (0 < modifierLetterPos) && decide (modifierLetterPos + modTileLen < letterCount)
      | some .psecond => tileContains 1
      | some .ppenultimate => tileContains (letterCount - 2) && decide (2 ≤ letterCount)
      | some .pcenter => letterCount % 2 == 1 && tileContains (letterCount / 2)
      | some .pcenterAny => tileContains ((letterCount - 1) / 2) || tileContains (letterCount / 2)
      | none => false
    if applies then (true, m.multiplier, if m.bonus.isSome then m.bonus.getD 0 else 0)
    else (false, 1, 0)
  | .mlength =>
    if truthyNat m.minLength && decide (m.minLength.getD 0 ≤ letterCount) then
      (true, if m.multiplier == 0 then 1 else m.multiplier, m.bonus.getD 0)
    else if truthyNat m.exactLength && letterCount == m.exactLength.getD 0 then
      (true, if m.multiplier == 0 then 1 else m.multiplier, m.bonus.getD 0)
    else if truthyNat m.maxLength && decide (letterCount ≤ m.maxLength.getD 0) then
      (true, if m.multiplier == 0 then 1 else m.multiplier, m.bonus.getD 0)
    else (false, 1, 0)
  | .mparity =>
    let isOdd := letterCount % 2 == 1
    match m.mparity with
    | some .podd => if isOdd then (true, 1, m.bonus.getD 0) else (false, 1, 0)
    | some .peven => if !isOdd then (true, 1, m.bonus.getD 0) else (false, 1, 0)
    | none => (false, 1, 0)
  | .mneighbor =>
    let prevOk :=
      if 0 < k then
        match (sequence.getD (k - 1) ⟨[], 0, 0, false, 0⟩).lUpper.getLast? with
        | some c => isVowelChar c
        | none => false
      else false
    let nextOk :=
      if k + 1 < sequence.length then
        match (sequence.getD (k + 1) ⟨[], 0, 0, false, 0⟩).lUpper.head? with
        | some c => isVowelChar c
        | none => false
      else false
    if prevOk || nextOk then (true, m.multiplier, 0) else (false, 1, 0)
  | .mcomposition =>
    let wordString := sequence.flatMap (·.lUpper)
    let vowels : Int := wordString.countP (fun c => isVowelChar c)
    let consonants : Int := (letterCount : Int) - vowels
    match m.compType with
    | some .balanced => if vowels == consonants then (true, 1, m.bonus.getD 0) else (false, 1, 0)
    | some .vowelRich => if consonants < vowels then (true, 1, m.bonus.getD 0) else (false, 1, 0)
    | some .vowelCount => if (m.minVowels.getD 0 : Int) ≤ vowels then (true, 1, m.bonus.getD 0) else (false, 1, 0)
    | some .consonantCount => if (m.minConsonants.getD 0 : Int) ≤ consonants then (true, 1, m.bonus.getD 0) else (false, 1, 0)
    | none => (false, 1, 0)
  | .mbonus => (true, 1, m.bonus.getD 0)

/-- `scoreSequence` of `bestWordWorker.js`: score an ordered tile sequence
against the round modifier. -/
def scoreSequence (sequence : List WTile) (modifier : Option Modifier) : Int :=
  match modifier with
  | none => 0
  | some m =>
    if sequence.isEmpty then 0
    else
      match sequence.findIdx? (isModTile m.dieIndex) with
      | none => (sequence.map (·.points)).sum
      | some k =>
        let e := modifierEffect m sequence k
        let base := (sequence.map (fun t =>
          if isModTile m.dieIndex t && e.1 && decide (1 < e.2.1) then t.points * e.2.1
          else t.points)).sum
        base + e.2.2

/-! ### Claim C6: the `exactLength` modifier -/

/-- The `Short & Sweet` modifier of the `MODIFIERS` table:
`{ multiplier: 3, type: 'length', exactLength: 4 }` attached to community
slot `d`. -/
def shortAndSweet (d : Nat) : Modifier :=
  { mname := "Short & Sweet".data
    desc := "×3 if your word is exactly 4 letters".data
    mtype := .mlength
    multiplier := 3
    exactLength := some 4
    dieIndex := d }

/-- Concrete round for the C6 witness: community tiles `T`(1), `A`(1),
`E`(1) at slots 0–2 (the modifier sits on slot 2), player tiles `S`(1) and
`T`(1); the submitted sequence `T E S T` has letter count 4 and uses the
modifier tile `E`. -/
def seqC6 : List WTile :=
  [⟨['T'], 1, 1, false, 0⟩, ⟨['E'], 1, 1, false, 2⟩, ⟨['S'], 1, 1, true, 0⟩, ⟨['T'], 1, 1, true, 1⟩]

/-- The modifier tile used in `seqC6`. -/
def mtC6 : WTile := ⟨['E'], 1, 1, false, 2⟩

/-! ## The best-word search of `bestWordWorker.js`

`computeBestWord` runs an exhaustive depth-first search over all orderings
of all subsets of the available tiles, keeping the best candidate that uses
at least one player tile and forms a dictionary word.  Ties are broken by
longer word, then lexicographically smaller word. -/

/-- A raw die as delivered in the worker payload: letters and points. -/
structure STile where
  letter : List Char
  points : Int
  deriving DecidableEq, Repr

/-- The accumulator of the search
(`bestWord` / `bestScore` / `bestLength`). -/
structure BWBest where
  bestWord : Option (List Char)
  bestScore : Int
  bestLength : Nat
  deriving DecidableEq, Repr

/-- The update condition of `computeBestWord`:
`score > bestScore || (score === bestScore && length > bestLength) ||
 (score === bestScore && length === bestLength && (!bestWord || word < bestWord))`. -/
def beatsB (score : Int) (w : List Char) (st : BWBest) : Bool :=
  decide (st.bestScore < score) ||
    (score == st.bestScore && decide (st.bestLength < w.length)) ||
    (score == st.bestScore && w.length == st.bestLength &&
      (st.bestWord.isNone || jsLtChars w (st.bestWord.getD [])))

/-- Letters of a tile sequence, concatenated (the word it spells). -/
def wordSeq (s : List WTile) : List Char := s.flatMap (·.lUpper)

/-- The accumulator recording the node `s` as the current best. -/
def nodeState (m : Option Modifier) (s : List WTile) : BWBest :=
  ⟨some (wordSeq s), scoreSequence s m, (wordSeq s).length⟩

/-- A node of the search is recorded iff it uses a player tile, spells at
least two letters, and its word is in the dictionary. -/
def HitSeq (dict : List (List Char)) (s : List WTile) : Prop :=
  s.any (·.isPlayer) = true ∧ 2 ≤ (wordSeq s).length ∧ wordSeq s ∈ dict

instance (dict : List (List Char)) (s : List WTile) : Decidable (HitSeq dict s) := by
  unfold HitSeq; infer_instance

/-- The candidate check and best-candidate update performed at each node of
the search. -/
def tryUpdate (dict : List (List Char)) (m : Option Modifier) (seq : List WTile)
    (cur : List Char) (up : Bool) (st : BWBest) : BWBest :=
  if up && decide (2 ≤ cur.length) && decide (cur ∈ dict) then
    let score := scoreSequence seq m
    if beatsB score cur st then ⟨some cur, score, cur.length⟩ else st
  else st

/-- Tile lookup by index (`tiles[i]`; the search only uses in-range
indices). -/
def tileAt (tiles : List WTile) (i : Nat) : WTile := tiles.getD i ⟨[], 0, 0, false, 0⟩

/-- The tiles selected by an index sequence. -/
def seqOf (tiles : List WTile) (l : List Nat) : List WTile := l.map (tileAt tiles)

/-- The recursive exploration of `computeBestWord`.  At a node with
sequence `seq`, the JavaScript loop `for (i = 0; ...) if (!used[i])`
iterates over `avail`, the unused indices in increasing order, threading
the best-candidate accumulator.  Picking `i` pushes the tile, offers the
node to the accumulator, recurses with `avail.erase i` when tiles remain,
and backtracks.  `fuel` bounds the recursion depth; every actual call has
`avail.length <= fuel`, so the fuel never runs out. -/
def dfsList (tiles : List WTile) (dict : List (List Char)) (m : Option Modifier) :
    Nat → List Nat → List WTile → List Char → Bool → BWBest → BWBest
  | 0, _, _, _, _, st => st
  | fuel + 1, avail, seq, cur, up, st =>
    avail.foldl (fun acc i =>
      let t := tileAt tiles i
      let seq2 := seq ++ [t]
      let cur2 := cur ++ t.lUpper
      let up2 := up || t.isPlayer
      let st1 := tryUpdate dict m seq2 cur2 up2 acc
      if seq2.length < tiles.length then
        dfsList tiles dict m fuel (avail.erase i) seq2 cur2 up2 st1
      else st1) st

/-- The loop body of one exploration level, as a named function. -/
def dfsStep (tiles : List WTile) (dict : List (List Char)) (m : Option Modifier)
    (fuel : Nat) (avail : List Nat) (seq : List WTile) (cur : List Char) (up : Bool)
    (acc : BWBest) (i : Nat) : BWBest :=
  let t := tileAt tiles i
  let seq2 := seq ++ [t]
  let cur2 := cur ++ t.lUpper
  let up2 := up || t.isPlayer
  let st1 := tryUpdate dict m seq2 cur2 up2 acc
  if seq2.length < tiles.length then
    dfsList tiles dict m fuel (avail.erase i) seq2 cur2 up2 st1
  else st1

/-- The index sequences drawable from the unused pool `avail`: each step
picks an element and continues with the pool minus that element. -/
def ExtFrom (avail : List Nat) : List Nat → Prop
  | [] => True
  | j :: rest => j ∈ avail ∧ ExtFrom (avail.erase j) rest

/-- The nonempty index sequences explorable from a loop position: the first
pick must come from the unprocessed suffix `toProcess`, the rest from the
pool minus it. -/
def Explorable (toProcess avail : List Nat) : List Nat → Prop
  | [] => False
  | j :: rest => j ∈ toProcess ∧ ExtFrom (avail.erase j) rest

/-- Tile preparation of `computeBestWord`: community then player dice, each
tagged with its origin and slot, skipping dice without letters; letters are
uppercased and the letter length recorded. -/
def mkWTile (isPlayer : Bool) (index : Nat) (letter : List Char) (points : Int) : WTile :=
  ⟨letter.map Char.toUpper, letter.length, points, isPlayer, index⟩

/-- The tile pool assembled from the worker payload. -/
def mkTiles (communityDice playerDice : List STile) : List WTile :=
  ((communityDice.enum.filter (fun p => !p.2.letter.isEmpty)).map
      (fun p => mkWTile false p.1 p.2.letter p.2.points)) ++
    ((playerDice.enum.filter (fun p => !p.2.letter.isEmpty)).map
      (fun p => mkWTile true p.1 p.2.letter p.2.points))

/-- `computeBestWord` of `bestWordWorker.js`: exhaustive search for the
best dictionary word over all orderings of the tile pool, returning
`(bestWord, bestScore)`. -/
def computeBestWord (communityDice playerDice : List STile) (modifier : Option Modifier)
    (dict : List (List Char)) : Option (List Char) × Int :=
  let tiles := mkTiles communityDice playerDice
  let st := dfsList tiles dict modifier tiles.length (List.range tiles.length)
    [] [] false ⟨none, 0, 0⟩
  (st.bestWord, st.bestScore)

/-- A candidate of the best-word search: a nonempty ordering of distinct
in-range tile indices that uses at least one player tile and spells a
dictionary word. -/
def IsCandidate (tiles : List WTile) (dict : List (List Char)) (l : List Nat) : Prop :=
  l ≠ [] ∧ l.Nodup ∧ (∀ j ∈ l, j < tiles.length) ∧
    (seqOf tiles l).any (·.isPlayer) = true ∧ wordSeq (seqOf tiles l) ∈ dict

/-- Concrete instance for the C5 witness: community tile `A`(1), player
tiles `T`(1) and `X`(4); dictionary `{AT}`; `Double Letter` on community
slot 0. -/
def dictC5 : List (List Char) := [['A', 'T']]

/-- Community dice for the C5 witness. -/
def cdC5 : List STile := [⟨['A'], 1⟩]

/-- Player dice for the C5 witness. -/
def pdC5 : List STile := [⟨['T'], 1⟩, ⟨['X'], 4⟩]

/-- The witness round's modifier (`Double Letter` on slot 0). -/
def modC5 : Modifier := { mtype := .multiply, multiplier := 2, dieIndex := 0 }

/-! ## Server-side validation and scoring (`validateAndScoreBotWord`)

The server validates a bot's claimed `(word, tileIds)` against the round's
dice and the dictionary, and computes the score with the server's modifier
logic. -/

/-- A tile reference as parsed from a candidate's tile list:
`community-<i>`, `player-<i>`, or anything else (an invalid tile). -/
inductive RefId
  | community (i : Nat)
  | player (i : Nat)
  | bad (code : Nat)
  deriving DecidableEq, Repr

/-- Whether a reference names a player die (sets `usesPlayerDie`). -/
def RefId.isPlayerRef : RefId → Bool
  | .player _ => true
  | _ => false

/-- Resolve a tile reference against the round's dice
(`communityDice[i]` / `playerDice[i]`). -/
def resolveRef (communityDice playerDice : List STile) : RefId → Option STile
  | .community i => communityDice[i]?
  | .player i => playerDice[i]?
  | .bad _ => none

/-- The tile-resolution loop of `validateAndScoreBotWord`: rejects
duplicate and unresolvable references, collects the referenced dice in
order, and tracks whether a player die was used. -/
def buildWordDice (communityDice playerDice : List STile) :
    List RefId → List RefId → Bool → Except String (List (RefId × STile) × Bool)
  | [], _, up => .ok ([], up)
  | tid :: rest, used, up =>
    if tid ∈ used then .error "duplicate tile"
    else
      match resolveRef communityDice playerDice tid with
      | none => .error "invalid tile"
      | some die =>
        match buildWordDice communityDice playerDice rest (tid :: used)
            (up || tid.isPlayerRef) with
        | .error r => .error r
        | .ok (wds, up2) => .ok ((tid, die) :: wds, up2)

/-- Vowels as tested by `'AEIOUaeiou'.includes` on the server. -/
def vowelsCI : List Char := ['A', 'E', 'I', 'O', 'U', 'a', 'e', 'i', 'o', 'u']

/-- The server's modifier condition evaluation (the `switch` in
`validateAndScoreBotWord`) for a modifier tile at position `k` of the
resolved dice: returns
`(modifierApplies, modifierMultiplier, modifierBonusPoints)`. -/
def serverModifierEffect (m : Modifier) (wordDice : List (RefId × STile)) (k : Nat) :
    Bool × Int × Int :=
  let letterCount := (wordDice.map (fun wd => wd.2.letter.length)).sum
  let modifierLetterPos := ((wordDice.take k).map (fun wd => wd.2.letter.length)).sum
  let modTileLen := (wordDice.getD k (RefId.bad 0, ⟨[], 0⟩)).2.letter.length
  let tileContains : Nat → Bool := fun target =>
    decide (modifierLetterPos ≤ target) && decide (target < modifierLetterPos + modTileLen)
  match m.mtype with
  | .multiply => (true, m.multiplier, 0)
  | .mposition =>
    match m.mpos with
    | some .pstart =>
      if modifierLetterPos == 0 then (true, m.multiplier, 0) else (false, 1, 0)
    | some .pend =>
      if modifierLetterPos + modTileLen == letterCount then (true, m.multiplier, 0)
      else (false, 1, 0)
    | some .pmiddle =>
      if decide (0 < modifierLetterPos) && decide (modifierLetterPos + modTileLen < letterCount)
      then (true, m.multiplier, 0) else (false, 1, 0)
    | some .psecond =>
      if tileContains 1 then (true, m.multiplier, 0) else (false, 1, 0)
    | some .ppenultimate =>
      if tileContains (letterCount - 2) && decide (2 ≤ letterCount) then (true, m.multiplier, 0)
      else (false, 1, 0)
    | some .pcenter =>
      if letterCount % 2 == 1 && tileContains (letterCount / 2) then (true, m.multiplier, 0)
      else (false, 1, 0)
    | _ => (false, 1, 0)
  | .mlength =>
    if truthyNat m.minLength && decide (m.minLength.getD 0 ≤ letterCount) then
      (true, if m.multiplier == 0 then 1 else m.multiplier, m.bonus.getD 0)
    else if truthyNat m.exactLength && letterCount == m.exactLength.getD 0 then
      (true, if m.multiplier == 0 then 1 else m.multiplier, m.bonus.getD 0)
    else (false, 1, 0)
  | .mparity =>
    let isOdd := letterCount % 2 == 1
    match m.mparity with
    | some .podd => if isOdd then (true, 1, m.bonus.getD 0) else (false, 1, 0)
    | some .peven => if !isOdd then (true, 1, m.bonus.getD 0) else (false, 1, 0)
    | none => (false, 1, 0)
  | .mneighbor =>
    let prevOk :=
      if 0 < k then
        match (wordDice.getD (k - 1) (RefId.bad 0, ⟨[], 0⟩)).2.letter.getLast? with
        | some c => c ∈ vowelsCI
        | none => false
      else false
    let nextOk :=
      if k + 1 < wordDice.length then
        match (wordDice.getD (k + 1) (RefId.bad 0, ⟨[], 0⟩)).2.letter.head? with
        | some c => c ∈ vowelsCI
        | none => false
      else false
    if prevOk || nextOk then (true, m.multiplier, 0) else (false, 1, 0)
  | .mcomposition =>
    let wordString := wordDice.flatMap (fun wd => wd.2.letter)
    let vowels : Int := wordString.countP (fun c => c ∈ vowelsCI)
    let consonants : Int := (letterCount : Int) - vowels
    match m.compType with
    | some .balanced => if vowels == consonants then (true, 1, m.bonus.getD 0) else (false, 1, 0)
    | some .vowelRich => if consonants < vowels then (true, 1, m.bonus.getD 0) else (false, 1, 0)
    | _ => (false, 1, 0)
  | .mbonus => (true, 1, m.bonus.getD 0)

/-- The server's score and breakdown computation over the resolved dice.
The modifier tile is located by the first occurrence of
`community-<dieIndex>` in the reference list. -/
def serverScoreAndBreakdown (m : Modifier) (wordDice : List (RefId × STile)) : Int × String :=
  let e :=
    match wordDice.findIdx? (fun wd => wd.1 == RefId.community m.dieIndex) with
    | none => (false, 1, 0)
    | some k => serverModifierEffect m wordDice k
  let letterScores := wordDice.map (fun wd =>
    let isModified := wd.1 == RefId.community m.dieIndex
    ((wd.2.letter : List Char),
      if isModified && e.1 && decide (1 < e.2.1) then wd.2.points * e.2.1 else wd.2.points))
  let baseScore := (letterScores.map (·.2)).sum
  let totalScore := baseScore + e.2.2
  let core := String.intercalate " + " (letterScores.map (fun ls =>
    String.mk ls.1 ++ "(" ++ toString ls.2 ++ ")"))
  let withBonus := if 0 < e.2.2 then core ++ " + " ++ toString e.2.2 else core
  (totalScore, withBonus ++ " = " ++ toString totalScore)

/-- The result of server-side validation: a reason code on failure, or the
uppercased word, score and breakdown on success. -/
inductive VRes
  | invalid (reason : String)
  | valid (word : List Char) (score : Int) (breakdown : String)
  deriving DecidableEq, Repr

/-- The `isValid` field of a validation result. -/
def VRes.isValid : VRes → Bool
  | .invalid _ => false
  | .valid _ _ _ => true

/-- `validateAndScoreBotWord` of `server.js`: dictionary membership, tile
resolution (duplicates, bad references), letter match, player-die use, and
server-side scoring. -/
def validateAndScoreBotWord (dict : List (List Char)) (communityDice playerDice : List STile)
    (m : Modifier) (word : List Char) (tileIds : List RefId) : VRes :=
  if (word.map Char.toUpper) ∈ dict then
    match buildWordDice communityDice playerDice tileIds [] false with
    | .error r => .invalid r
    | .ok (wordDice, usesPlayerDie) =>
      let builtWord := wordDice.flatMap (fun wd => wd.2.letter)
      if builtWord.map Char.toUpper == word.map Char.toUpper then
        if usesPlayerDie then
          let sb := serverScoreAndBreakdown m wordDice
          .valid (builtWord.map Char.toUpper) sb.1 sb.2
        else .invalid "must use player die"
      else .invalid "tiles do not match word"
  else .invalid "not in dictionary"

/-! ## The session state (`lobby`) and its handlers

`Map` fields are association lists in insertion order.  The three
cancellable timers attached to a player or to the lobby (host transfer at
30 s, player removal at 2 min, lobby deletion at 5 min) are modelled as
pending flags: scheduling sets the flag, cancellation clears it, and a
timer's callback runs only while its flag is set. -/

inductive Status
  | waiting | playing | finished
  deriving DecidableEq, Repr

/-- A stored submission (`playerSubmissions` entry). -/
structure Submission where
  word : List Char
  score : Int
  breakdown : String
  isValid : Bool
  playerLetters : List Char
  timestamp : Int
  deriving DecidableEq, Repr

/-- A player of the session. -/
structure Player where
  visibleId : String
  pname : String
  dice : List STile
  totalPoints : Int
  isHost : Bool
  isBot : Bool
  botRetries : Option Nat
  disconnectedAt : Option Int
  removeTimeout : Bool
  hostTransferTimeout : Bool
  deriving DecidableEq, Repr

/-- An entry of the results list computed by `calculatePlacements`.
Ranked entries carry `place = some p`; players without a valid submission
get `place = none` and the `isInvalid` / `noSubmission` flags. -/
structure RoundResult where
  visibleId : String
  rname : String
  word : List Char
  score : Int
  breakdown : String
  place : Option Nat
  pointsEarned : Int
  isInvalid : Bool
  noSubmission : Bool
  deriving DecidableEq, Repr

/-- A standings-snapshot entry of a round-history record. -/
structure Standing where
  visibleId : String
  sname : String
  totalPoints : Int
  deriving DecidableEq, Repr

/-- A per-player line of a round-history record. -/
structure HistResult where
  visibleId : String
  hname : String
  word : List Char
  score : Int
  place : Option Nat
  pointsEarned : Int
  isInvalid : Bool
  noSubmission : Bool
  playerLetters : List Char
  deriving DecidableEq, Repr

/-- One `roundHistory` record. -/
structure RoundEntry where
  roundNumber : Nat
  results : List HistResult
  standings : List Standing
  communityLetters : List (List Char)
  modifier : Option Modifier
  deriving DecidableEq, Repr

/-- The per-session state. -/
structure Lobby where
  status : Status
  totalRounds : Nat
  timerDuration : Int
  players : List Player
  playerSockets : List (String × String)
  roundNumber : Nat
  communityDice : List STile
  modifier : Option Modifier
  playerSubmissions : List (String × Submission)
  timerRemaining : Int
  timerRunning : Bool
  timerHalved : Bool
  revealed : Bool
  roundHistory : List RoundEntry
  deleteTimeout : Bool
  deriving DecidableEq, Repr

/-- `Map.get`: the value of the first (only) pair with the key. -/
def lookupAssoc (l : List (String × α)) (k : String) : Option α :=
  (l.find? (fun p => p.1 == k)).map (·.2)

/-- `Map.set`: overwrite in place, or append a new key at the end. -/
def setAssoc (k : String) (v : α) : List (String × α) → List (String × α)
  | [] => [(k, v)]
  | (k2, v2) :: rest => if k2 == k then (k2, v) :: rest else (k2, v2) :: setAssoc k v rest

/-- `Map.delete` (keys are unique, so dropping every pair with the key
is the same as deleting the entry). -/
def eraseAssoc (l : List (String × α)) (k : String) : List (String × α) :=
  l.filter (fun p => !(p.1 == k))

/-- `players.get(visibleId)`. -/
def findPlayer (players : List Player) (id : String) : Option Player :=
  players.find? (fun p => p.visibleId == id)

/-- In-place mutation of the player with the given id. -/
def updatePlayer (id : String) (f : Player → Player) : List Player → List Player
  | [] => []
  | p :: ps => if p.visibleId == id then f p :: ps else p :: updatePlayer id f ps

/-- `players.delete(visibleId)` (ids are unique). -/
def erasePlayer (players : List Player) (id : String) : List Player :=
  players.filter (fun p => !(p.visibleId == id))

/-- `PLACEMENT_POINTS[place] || 0`. -/
def placementPoints : Nat → Int
  | 1 => 3
  | 2 => 2
  | 3 => 1
  | _ => 0

/-- A valid submission collected in the first phase of
`calculatePlacements`. -/
structure VEntry where
  visibleId : String
  vname : String
  word : List Char
  score : Int
  breakdown : String
  deriving DecidableEq, Repr

/-- Phase one of `calculatePlacements`: the valid submissions whose player
is still in the session, in submission-map order. -/
def collectValid (players : List Player) (subs : List (String × Submission)) : List VEntry :=
  subs.filterMap (fun pr =>
    match findPlayer players pr.1 with
    | some player =>
      if pr.2.isValid then some ⟨pr.1, player.pname, pr.2.word, pr.2.score, pr.2.breakdown⟩
      else none
    | none => none)

/-- The descending-score comparison used to sort the valid submissions
(`(a, b) => b.score - a.score`). -/
def entryGE (a b : VEntry) : Prop := b.score ≤ a.score

instance : DecidableRel entryGE := fun a b => Int.decLe b.score a.score

instance : IsTotal VEntry entryGE := ⟨fun a b => le_total b.score a.score⟩

instance : IsTrans VEntry entryGE := ⟨fun _ _ _ h1 h2 => le_trans h2 h1⟩

/-- The placement fold of `calculatePlacements` over the sorted valid
submissions: walks with `(idx, lastScore, currentPlace)`, assigns places
and points, and adds each player's earned points to `totalPoints`. -/
def rankLoop (players : List Player) (idx : Nat) (lastScore : Option Int) (curPlace : Nat) :
    List VEntry → List RoundResult × List Player
  | [] => ([], players)
  | e :: rest =>
    let place := if lastScore == some e.score then curPlace else idx + 1
    let pts := placementPoints place
    let players2 := updatePlayer e.visibleId
      (fun p => { p with totalPoints := p.totalPoints + pts }) players
    let r := rankLoop players2 (idx + 1) (some e.score) place rest
    (⟨e.visibleId, e.vname, e.word, e.score, e.breakdown, some place, pts, false, false⟩ :: r.1,
      r.2)

/-- The results entry added for a player without a valid submission. -/
def mkNonRanked (subs : List (String × Submission)) (p : Player) : RoundResult :=
  match lookupAssoc subs p.visibleId with
  | none => ⟨p.visibleId, p.pname, "—".data, 0, "", none, 0, false, true⟩
  | some s =>
    ⟨p.visibleId, p.pname, if s.word.isEmpty then "—".data else s.word, s.score, s.breakdown,
      none, 0, !s.isValid, false⟩

/-- Phase two of `calculatePlacements`: every player without a results
entry yet is appended with place `null` and zero points. -/
def addNonRanked (subs : List (String × Submission)) (players : List Player)
    (acc : List RoundResult) : List RoundResult :=
  players.foldl (fun acc p =>
    if acc.any (fun r => r.visibleId == p.visibleId) then acc
    else acc ++ [mkNonRanked subs p]) acc

/-- `calculatePlacements` of `server.js`: returns the results list and the
player map with the earned points added. -/
def calculatePlacements (players : List Player) (subs : List (String × Submission)) :
    List RoundResult × List Player :=
  let valids := collectValid players subs
  let sorted := List.insertionSort entryGE valids
  let r := rankLoop players 0 none 0 sorted
  (addNonRanked subs r.2 r.1, r.2)

/-- `submission?.playerLetters || player?.dice?.map(d => d.letter).join('') || ''`. -/
def histPlayerLetters (subs : List (String × Submission)) (players : List Player)
    (id : String) : List Char :=
  let fallback :=
    match findPlayer players id with
    | some p => p.dice.flatMap (·.letter)
    | none => []
  match lookupAssoc subs id with
  | some s => if s.playerLetters.isEmpty then fallback else s.playerLetters
  | none => fallback

/-- The history line derived from a results entry. -/
def histResultOf (subs : List (String × Submission)) (players : List Player)
    (r : RoundResult) : HistResult :=
  ⟨r.visibleId, r.rname, if r.word.isEmpty then "—".data else r.word, r.score, r.place,
    r.pointsEarned, r.isInvalid, r.noSubmission, histPlayerLetters subs players r.visibleId⟩

/-- `revealResults` of `server.js`: a no-op when already revealed;
otherwise stops the timer, marks the round revealed, runs the placement
computation (awarding points), and appends the round record to
`roundHistory`.  The asynchronous fun-fact generation and the broadcasts
have no effect on the session state modelled here. -/
def revealResults (lobby : Lobby) : Lobby :=
  if lobby.revealed then lobby
  else
    let cp := calculatePlacements lobby.players lobby.playerSubmissions
    let standingsSnapshot := List.insertionSort
      (fun a b : Standing => b.totalPoints ≤ a.totalPoints)
      (cp.2.map (fun p => ⟨p.visibleId, p.pname, p.totalPoints⟩))
    let entry : RoundEntry :=
      { roundNumber := lobby.roundNumber
        results := cp.1.map (histResultOf lobby.playerSubmissions cp.2)
        standings := standingsSnapshot
        communityLetters := lobby.communityDice.map (·.letter)
        modifier := lobby.modifier }
    { lobby with
        timerRunning := false
        revealed := true
        players := cp.2
        roundHistory := lobby.roundHistory ++ [entry] }

/-- The payload of a human `player:submitWord` event, exactly as supplied
by the client. -/
structure ClientSubmission where
  word : List Char
  score : Int
  breakdown : String
  isValid : Bool
  deriving DecidableEq, Repr

/-- The visible effects of a submission: whether it was accepted and
whether a `game:timerHalved` event was broadcast. -/
structure SubmitOutcome where
  accepted : Bool
  halvedFired : Bool
  deriving DecidableEq, Repr

/-- The `player:submitWord` handler: stores the client-supplied word,
score, breakdown and validity verbatim (plus the player's letters and a
timestamp), halves the timer on a new non-final submission with more than
10 seconds left, and reveals the round when everyone has submitted. -/
def submitWordHandler (lobby : Lobby) (visibleId : String) (d : ClientSubmission)
    (now : Int) : Lobby × SubmitOutcome :=
  match findPlayer lobby.players visibleId with
  | none => (lobby, ⟨false, false⟩)
  | some player =>
    if lobby.revealed then (lobby, ⟨false, false⟩)
    else
      let isNewSubmission := (lookupAssoc lobby.playerSubmissions visibleId).isNone
      let playerLetters := player.dice.flatMap (·.letter)
      let subs2 := setAssoc visibleId
        ⟨d.word, d.score, d.breakdown, d.isValid, playerLetters, now⟩ lobby.playerSubmissions
      let lobby2 := { lobby with playerSubmissions := subs2 }
      let allSubmitted := subs2.length == lobby2.players.length
      let halve := isNewSubmission && !allSubmitted && decide (10 < lobby2.timerRemaining)
      let lobby3 :=
        if halve then { lobby2 with timerRemaining := max 10 (lobby2.timerRemaining / 2) }
        else lobby2
      let lobby4 :=
        if subs2.length == lobby3.players.length then revealResults lobby3 else lobby3
      (lobby4, ⟨true, halve⟩)

/-- `submitBotWord`: stores the server-validated word, score and breakdown
with `isValid: true`, with the same timer-halving and all-submitted logic
as the human path. -/
def submitBotWord (lobby : Lobby) (bot : Player) (word : List Char) (score : Int)
    (breakdown : String) (now : Int) : Lobby × Bool :=
  if lobby.revealed then (lobby, false)
  else
    let isNewSubmission := (lookupAssoc lobby.playerSubmissions bot.visibleId).isNone
    let subs2 := setAssoc bot.visibleId
      ⟨word, score, breakdown, true, bot.dice.flatMap (·.letter), now⟩ lobby.playerSubmissions
    let lobby2 := { lobby with playerSubmissions := subs2 }
    let allSubmitted := subs2.length == lobby2.players.length
    let halve := isNewSubmission && !allSubmitted && decide (10 < lobby2.timerRemaining)
    let lobby3 :=
      if halve then { lobby2 with timerRemaining := max 10 (lobby2.timerRemaining / 2) }
      else lobby2
    let lobby4 :=
      if subs2.length == lobby3.players.length then revealResults lobby3 else lobby3
    (lobby4, halve)

/-- The `disconnect` handler: removes the socket mapping, records
`disconnectedAt`, optionally arms the host-transfer timer, arms the
2-minute removal timer, and arms the 5-minute lobby-deletion timer when no
sockets remain.  Player data (dice, points, submissions) is untouched. -/
def disconnectHandler (lobby : Lobby) (visibleId : String) (now : Int) : Lobby :=
  match findPlayer lobby.players visibleId with
  | none => lobby
  | some player =>
    let sockets2 := eraseAssoc lobby.playerSockets visibleId
    let players2 := updatePlayer visibleId (fun p => { p with disconnectedAt := some now })
      lobby.players
    let players3 :=
      if player.isHost && lobby.status == Status.waiting then
        updatePlayer visibleId (fun p => { p with hostTransferTimeout := true }) players2
      else players2
    let players4 := updatePlayer visibleId (fun p => { p with removeTimeout := true }) players3
    let lobby2 := { lobby with players := players4, playerSockets := sockets2 }
    if sockets2.isEmpty then { lobby2 with deleteTimeout := true } else lobby2

/-- The returning-player branch of the `lobby:join` handler: cancels the
pending removal and host-transfer timers, clears `disconnectedAt`, rebinds
the socket, and cancels any pending lobby deletion.  All player data is
retained. -/
def rejoinHandler (lobby : Lobby) (existingId : String) (socketId : String) : Lobby :=
  match findPlayer lobby.players existingId with
  | none => lobby
  | some _ =>
    let players2 := updatePlayer existingId
      (fun p =>
        { p with
            removeTimeout := false
            hostTransferTimeout := false
            disconnectedAt := none })
      lobby.players
    let sockets2 := setAssoc existingId socketId lobby.playerSockets
    { lobby with players := players2, playerSockets := sockets2, deleteTimeout := false }

/-- The 2-minute removal timer firing for a player: runs only while the
timer is still pending (a cancelled timer does not fire); the callback
itself re-checks that the player is still disconnected before deleting
them from the player map. -/
def removalTimerFire (lobby : Lobby) (visibleId : String) : Lobby :=
  match findPlayer lobby.players visibleId with
  | none => lobby
  | some player =>
    if player.removeTimeout then
      if (lookupAssoc lobby.playerSockets visibleId).isNone then
        { lobby with players := erasePlayer lobby.players visibleId }
      else lobby
    else lobby

/-! ## Bot negotiation (`scheduleBotSubmission` / `generateBotWord`)

The word-proposal oracle is modelled as a function from the attempt number
to an optional parsed candidate (`none` for an unparseable response).
`generateBotWord` builds its request from the lobby's community dice, the
bot's dice and the round modifier; the request carries no other inputs. -/

/-- `botPlayer.botRetries || 3`. -/
def botRetriesOrDefault (p : Player) : Nat :=
  match p.botRetries with
  | none => 3
  | some n => if n == 0 then 3 else n

/-- The prompt sent to the word-proposal oracle by `generateBotWord`,
assembled from the community dice, the bot's dice and the modifier. -/
def generateBotWordRequest (communityDice playerDice : List STile) (m : Modifier) : String :=
  let communityTileList := String.intercalate ", " (communityDice.enum.map (fun p =>
    "community-" ++ toString p.1 ++ "=\"" ++ String.mk p.2.letter ++ "\"("
      ++ toString p.2.points ++ "pts)"))
  let privateTileList := String.intercalate ", " (playerDice.enum.map (fun p =>
    "player-" ++ toString p.1 ++ "=\"" ++ String.mk p.2.letter ++ "\"("
      ++ toString p.2.points ++ "pts)"))
  let modifierDieLetter := String.mk (communityDice.getD m.dieIndex ⟨[], 0⟩).letter
  "You are an expert Scrabble player competing to WIN. Find the HIGHEST-SCORING valid English word.\n\nTILES AVAILABLE (with point values):\nCommunity tiles: "
    ++ communityTileList
    ++ "\nYour tiles: "
    ++ privateTileList
    ++ "\n\nBONUS THIS ROUND: \""
    ++ String.mk m.mname
    ++ "\" on community-"
    ++ toString m.dieIndex
    ++ " (\""
    ++ modifierDieLetter
    ++ "\")\nBonus effect: "
    ++ String.mk m.desc
    ++ "\n\nTILE IDs:\n- Community tiles: community-0, community-1, community-2, community-3, community-4\n- Your tiles: player-0, player-1, player-2\n- IMPORTANT: Never use \"private-X\" - always use \"player-X\"\n\nRULES:\n1. MUST use at least one of your tiles (player-0, player-1, or player-2)\n2. Each tile can only be used once\n3. Must be a real English word\n\nSCORING: Points = sum of letter values (shown in parentheses) + bonus if conditions met.\n\nOUTPUT FORMAT (exactly two lines):\nWORD: [uppercase word]\nTILES: [comma-separated tile IDs spelling the word in order]\n\nExample:\nWORD: CASTE\nTILES: community-0,community-1,player-0,community-2,player-1\n\nFind the highest-scoring valid word. Consider the bonus!"

/-- The record of one negotiation attempt: the request sent, the parsed
proposal (or `none` for an unparseable response), and the server-side
verdict on the proposal. -/
structure BotAttempt where
  request : String
  proposal : Option (List Char × List RefId)
  verdict : Option VRes
  deriving DecidableEq, Repr

/-- The retry loop of `scheduleBotSubmission`: up to `remaining` further
attempts, counting attempts made so far.  Each attempt sends the (same)
request, validates any parsed candidate through
`validateAndScoreBotWord`, stops at the first valid one, and otherwise
retries.  Returns the accepted validation (if any), the number of
attempts made, and the attempt transcript. -/
def botNegotiate (request : String) (validate : List Char → List RefId → VRes)
    (oracle : Nat → Option (List Char × List RefId)) :
    Nat → Nat → Option VRes × Nat × List BotAttempt
  | 0, attempts => (none, attempts, [])
  | remaining + 1, attempts =>
    match oracle (attempts + 1) with
    | none =>
      let r := botNegotiate request validate oracle remaining (attempts + 1)
      (r.1, r.2.1, ⟨request, none, none⟩ :: r.2.2)
    | some c =>
      let v := validate c.1 c.2
      if v.isValid then (some v, attempts + 1, [⟨request, some c, some v⟩])
      else
        let r := botNegotiate request validate oracle remaining (attempts + 1)
        (r.1, r.2.1, ⟨request, some c, some v⟩ :: r.2.2)

/-- `scheduleBotSubmission`'s effect on the session: skip if the round is
already revealed; otherwise run the bounded negotiation and submit the
first accepted candidate through the same path as a human submission.
With no accepted candidate the session is left unchanged (the bot has no
submission). -/
def scheduleBotRun (dict : List (List Char)) (lobby : Lobby) (bot : Player)
    (oracle : Nat → Option (List Char × List RefId)) (now : Int) : Lobby :=
  if lobby.revealed then lobby
  else
    match lobby.modifier with
    | none => lobby
    | some m =>
      match (botNegotiate (generateBotWordRequest lobby.communityDice bot.dice m)
          (validateAndScoreBotWord dict lobby.communityDice bot.dice m) oracle
          (botRetriesOrDefault bot) 0).1 with
      | some (.valid w s b) => (submitBotWord lobby bot w s b now).1
      | _ => lobby

/-! ## Concrete fixtures for the claims about session handlers -/

/-- A human player with no dice, points or pending timers. -/
def mkHuman (id : String) : Player :=
  ⟨id, id, [], 0, false, false, none, none, false, false⟩

/-- A stored submission with the given word, score and validity. -/
def mkSub (w : List Char) (sc : Int) (valid : Bool) : Submission :=
  ⟨w, sc, "", valid, [], 0⟩

/-- A three-player session in round 1 with 75 seconds remaining and no
submissions yet. -/
def lobbyC1 : Lobby :=
  { status := .playing
    totalRounds := 10
    timerDuration := 75
    players := [mkHuman "A", mkHuman "B", mkHuman "C"]
    playerSockets := [("A", "sA"), ("B", "sB"), ("C", "sC")]
    roundNumber := 1
    communityDice := []
    modifier := some (shortAndSweet 0)
    playerSubmissions := []
    timerRemaining := 75
    timerRunning := true
    timerHalved := false
    revealed := false
    roundHistory := []
    deleteTimeout := false }

/-- Dictionary for the C2 counterexample (contains only `CAT`). -/
def dictC2 : List (List Char) := [['C', 'A', 'T']]

/-- Modifier for the C2 counterexample (`Bonus +5` on slot 0). -/
def modC2 : Modifier := { mtype := .mbonus, bonus := some 5, dieIndex := 0 }

/-- The four players of the placement example. -/
def playersC3 : List Player := [mkHuman "P1", mkHuman "P2", mkHuman "P3", mkHuman "P4"]

/-- The submissions of the placement example: valid scores 50, 50, 30 and
no submission for `P4`. -/
def subsC3 : List (String × Submission) :=
  [("P1", mkSub ['A'] 50 true), ("P2", mkSub ['B'] 50 true), ("P3", mkSub ['C'] 30 true)]

/-- A one-player unrevealed session for the C7 witness. -/
def lobbyC7 : Lobby :=
  { status := .playing
    totalRounds := 10
    timerDuration := 75
    players := [mkHuman "A"]
    playerSockets := [("A", "sA")]
    roundNumber := 1
    communityDice := []
    modifier := none
    playerSubmissions := []
    timerRemaining := 20
    timerRunning := true
    timerHalved := false
    revealed := false
    roundHistory := []
    deleteTimeout := false }

/-- The player record left by a disconnect at time `t`. -/
def disconnectedPlayer (lobby : Lobby) (p : Player) (t : Int) : Player :=
  { p with
      disconnectedAt := some t
      hostTransferTimeout :=
        if p.isHost && lobby.status == Status.waiting then true else p.hostTransferTimeout
      removeTimeout := true }

/-- The connected player of the C9 witness session: 5 points, one die,
and a stored submission in the session below. -/
def playerC9 : Player := { mkHuman "A" with totalPoints := 5, dice := [⟨['E'], 1⟩] }

/-- Witness session for C9: one connected player with points, dice and a
stored submission. -/
def lobbyC9 : Lobby :=
  { status := .playing
    totalRounds := 10
    timerDuration := 75
    players := [playerC9]
    playerSockets := [("A", "sA")]
    roundNumber := 2
    communityDice := []
    modifier := none
    playerSubmissions := [("A", mkSub ['E', 'E'] 2 true)]
    timerRemaining := 30
    timerRunning := true
    timerHalved := false
    revealed := false
    roundHistory := []
    deleteTimeout := false }

/-! ## Claims C4 and C10: the placement ranker -/

/-- The spec's competition-ranking place: 1 + the number of strictly
higher-scoring valid entries of the round. -/
def placeIn (l : List VEntry) (e : VEntry) : Nat :=
  1 + l.countP (fun v => decide (e.score < v.score))

/-- The spec's ranked results entry for a valid entry: the submission's
data with the competition-ranking place and its placement points. -/
def rankedResult (l : List VEntry) (e : VEntry) : RoundResult :=
  ⟨e.visibleId, e.vname, e.word, e.score, e.breakdown, some (placeIn l e),
    placementPoints (placeIn l e), false, false⟩

/-- The per-entry player update performed by the placement fold. -/
def addPts (l : List VEntry) (e : VEntry) (p : Player) : Player :=
  { p with totalPoints := p.totalPoints + placementPoints (placeIn l e) }

/-- The two players of the C4 witness round. -/
def playersC4 : List Player := [mkHuman "P", mkHuman "Q"]

/-- The submissions of the C4 witness round: one valid submission. -/
def subsC4 : List (String × Submission) := [("P", mkSub ['H', 'I'] 5 true)]

/-- The two players of the C10 witness round. -/
def playersC10 : List Player := [mkHuman "R", mkHuman "S"]

/-- The submissions of the C10 witness round: one orphan submission from
the departed player "X" and one valid submission from "R". -/
def subsC10 : List (String × Submission) :=
  [("X", mkSub ['A'] 9 true), ("R", mkSub ['B'] 4 true)]

/-- The community dice of the C8 session. -/
def cdC8 : List STile := [⟨['A'], 1⟩]

/-- The bot's dice in the C8 session. -/
def pdC8 : List STile := [⟨['T'], 1⟩]

/-- The round modifier of the C8 session. -/
def modC8 : Modifier := { mtype := .mbonus, bonus := some 2, dieIndex := 0 }

/-- The dictionary of the C8 session. -/
def dictC8 : List (List Char) := [['A', 'T']]

/-- A word-proposal oracle that answers the first request with the
dictionary-invalid candidate "ZZ" and then stops parsing. -/
def oracleC8 : Nat → Option (List Char × List RefId) :=
  fun n => if n == 1 then some (['Z', 'Z'], [RefId.player 0, RefId.player 0]) else none

/-! ## Theorems -/

theorem jsLtChars_irrefl : ∀ l : List Char, jsLtChars l l = false := by
  intro l
  induction l with
  | nil => rfl
  | cons a as ih => simp [jsLtChars, ih]

theorem jsLtChars_trans : ∀ {x y z : List Char},
    jsLtChars x y = true → jsLtChars y z = true → jsLtChars x z = true := by
  intro x
  induction x with
  | nil =>
    intro y z hxy hyz
    cases y with
    | nil => exact absurd hxy (by simp [jsLtChars])
    | cons b bs =>
      cases z with
      | nil => exact absurd hyz (by simp [jsLtChars])
      | cons c cs => simp [jsLtChars]
  | cons a as ih =>
    intro y z hxy hyz
    cases y with
    | nil => exact absurd hxy (by simp [jsLtChars])
    | cons b bs =>
      cases z with
      | nil => exact absurd hyz (by simp [jsLtChars])
      | cons c cs =>
        simp only [jsLtChars] at hxy hyz ⊢
        by_cases hab : a.toNat < b.toNat
        · by_cases hbc : b.toNat < c.toNat
          · simp [Nat.lt_trans hab hbc]
          · simp only [hbc, if_false] at hyz
            by_cases hcb : c.toNat < b.toNat
            · simp [hcb] at hyz
            · have : b.toNat = c.toNat := Nat.le_antisymm (Nat.le_of_not_lt hcb) (Nat.le_of_not_lt hbc)
              simp [this ▸ hab]
        · simp only [hab, if_false] at hxy
          by_cases hba : b.toNat < a.toNat
          · simp [hba] at hxy
          · have hab' : a.toNat = b.toNat := Nat.le_antisymm (Nat.le_of_not_lt hba) (Nat.le_of_not_lt hab)
            simp only [hba, if_false] at hxy
            by_cases hbc : b.toNat < c.toNat
            · simp [hab' ▸ hbc]
            · simp only [hbc, if_false] at hyz
              by_cases hcb : c.toNat < b.toNat
              · simp [hcb] at hyz
              · simp only [hcb, if_false] at hyz
                have hbc' : b.toNat = c.toNat := Nat.le_antisymm (Nat.le_of_not_lt hcb) (Nat.le_of_not_lt hbc)
                have : ¬ a.toNat < c.toNat := by omega
                simp only [this, if_false]
                have : ¬ c.toNat < a.toNat := by omega
                simp only [this, if_false]
                exact ih hxy hyz

theorem countP_one_mem_unique {p : WTile → Bool} :
    ∀ (l : List WTile), l.countP p = 1 → ∀ x ∈ l, p x = true →
      ∀ y ∈ l, p y = true → y = x := by
  intro l
  induction l with
  | nil => intro _ x hx; cases hx
  | cons a as ih =>
    intro hcount x hx hpx y hy hpy
    rw [List.countP_cons] at hcount
    by_cases hpa : p a = true
    · simp only [hpa, if_true] at hcount
      have has : as.countP p = 0 := by omega
      have hnone : ∀ z ∈ as, ¬ p z = true := List.countP_eq_zero.mp has
      have hxa : x = a := by
        rcases List.mem_cons.mp hx with h | h
        · exact h
        · exact absurd hpx (hnone x h)
      have hya : y = a := by
        rcases List.mem_cons.mp hy with h | h
        · exact h
        · exact absurd hpy (hnone y h)
      rw [hya, hxa]
    · simp only [if_neg hpa] at hcount
      have hx' : x ∈ as := by
        rcases List.mem_cons.mp hx with h | h
        · exact absurd (h ▸ hpx) hpa
        · exact h
      have hy' : y ∈ as := by
        rcases List.mem_cons.mp hy with h | h
        · exact absurd (h ▸ hpy) hpa
        · exact h
      exact ih (by omega) x hx' hpx y hy' hpy

theorem sum_map_ite_of_unique (p : WTile → Bool) (f g : WTile → Int) :
    ∀ (l : List WTile) (x : WTile), x ∈ l → p x = true → l.countP p = 1 →
      (l.map (fun t => if p t then f t else g t)).sum = (l.map g).sum + (f x - g x) := by
  intro l
  induction l with
  | nil => intro x hx; cases hx
  | cons a as ih =>
    intro x hx hpx hcount
    rw [List.countP_cons] at hcount
    by_cases hpa : p a = true
    · simp only [hpa, if_true] at hcount
      have has : as.countP p = 0 := by omega
      have hnone : ∀ z ∈ as, ¬ p z = true := List.countP_eq_zero.mp has
      have hxa : x = a := by
        rcases List.mem_cons.mp hx with h | h
        · exact h
        · exact absurd hpx (hnone x h)
      have htail : (as.map (fun t => if p t then f t else g t)) = as.map g := by
        apply List.map_congr_left
        intro z hz
        simp [Bool.eq_false_iff.mpr (hnone z hz)]
      simp only [List.map_cons, List.sum_cons, hpa, if_true, htail, hxa]
      ring
    · simp only [if_neg hpa] at hcount
      have hx' : x ∈ as := by
        rcases List.mem_cons.mp hx with h | h
        · exact absurd (h ▸ hpx) hpa
        · exact h
      have := ih x hx' hpx (by omega)
      simp only [List.map_cons, List.sum_cons, this, hpa, Bool.false_eq_true, if_false]
      ring

theorem findIdx?_isSome_of_mem {p : WTile → Bool} :
    ∀ (l : List WTile), (∃ x ∈ l, p x = true) → ∃ k, l.findIdx? p = some k := by
  intro l
  induction l with
  | nil => rintro ⟨x, hx, _⟩; cases hx
  | cons a as ih =>
    rintro ⟨x, hx, hpx⟩
    by_cases hpa : p a = true
    · exact ⟨0, by simp [List.findIdx?_cons, hpa]⟩
    · have hx' : x ∈ as := by
        rcases List.mem_cons.mp hx with h | h
        · exact absurd (h ▸ hpx) hpa
        · exact h
      obtain ⟨k, hk⟩ := ih ⟨x, hx', hpx⟩
      exact ⟨k + 1, by simp [List.findIdx?_cons, hpa, hk]⟩

/-- **C6.** Under the length-type modifier with `exactLength = 4` and
`multiplier = 3` (`Short & Sweet`), a submission whose total letter count
— digraph tiles counting as two letters — is exactly 4 and which uses the
modifier's community tile scores every tile normally except the modifier
tile, whose points are tripled (the total is the plain sum plus twice the
modifier tile's points); a 5-letter submission using the same modifier tile
gets no multiplier and no bonus (the total is the plain sum). -/
theorem exactLength_modifier_scoring (seq : List WTile) (d : Nat) (mt : WTile)
    (hmem : mt ∈ seq) (hmt : isModTile d mt = true)
    (hone : seq.countP (isModTile d) = 1) :
    (sumLetterLen seq = 4 →
      scoreSequence seq (some (shortAndSweet d)) = (seq.map (·.points)).sum + 2 * mt.points) ∧
    (sumLetterLen seq = 5 →
      scoreSequence seq (some (shortAndSweet d)) = (seq.map (·.points)).sum) := by
  have hne : seq ≠ [] := by
    intro h; rw [h] at hmem; cases hmem
  have hemp : seq.isEmpty = false := by
    cases seq with
    | nil => exact absurd rfl hne
    | cons a as => rfl
  have hdi : (shortAndSweet d).dieIndex = d := rfl
  obtain ⟨k, hk⟩ := findIdx?_isSome_of_mem seq ⟨mt, hmem, hmt⟩
  constructor
  · intro hlen
    have heff : modifierEffect (shortAndSweet d) seq k = (true, 3, 0) := by
      simp [modifierEffect, shortAndSweet, truthyNat, hlen]
    simp only [scoreSequence, hdi, hemp, Bool.false_eq_true, if_false, hk, heff]
    have hcond : ∀ t : WTile,
        (if isModTile d t && (true, (3 : Int), (0 : Int)).1 &&
            decide (1 < (true, (3 : Int), (0 : Int)).2.1) then
          t.points * (true, (3 : Int), (0 : Int)).2.1 else t.points)
          = (if isModTile d t then t.points * 3 else t.points) := by
      intro t; norm_num
    simp only [hcond]
    have := sum_map_ite_of_unique (isModTile d) (fun t => t.points * 3) (·.points)
      seq mt hmem hmt hone
    simp only [this]
    ring
  · intro hlen
    have heff : modifierEffect (shortAndSweet d) seq k = (false, 1, 0) := by
      simp [modifierEffect, shortAndSweet, truthyNat, hlen]
    simp only [scoreSequence, hdi, hemp, Bool.false_eq_true, if_false, hk, heff]
    norm_num

theorem exactLength_modifier_scoring_witness :
    mtC6 ∈ seqC6 ∧ isModTile 2 mtC6 = true ∧ seqC6.countP (isModTile 2) = 1 ∧
      sumLetterLen seqC6 = 4 ∧
      scoreSequence seqC6 (some (shortAndSweet 2)) = (seqC6.map (·.points)).sum + 2 * mtC6.points :=
  ⟨by decide, by decide, by decide, by decide,
    (exactLength_modifier_scoring seqC6 2 mtC6 (by decide) (by decide) (by decide)).1 (by decide)⟩

theorem beatsB_eq_true_iff (score : Int) (w : List Char) (st : BWBest) :
    beatsB score w st = true ↔
      (st.bestScore < score ∨
        (score = st.bestScore ∧ st.bestLength < w.length) ∨
        (score = st.bestScore ∧ w.length = st.bestLength ∧
          (st.bestWord = none ∨ jsLtChars w (st.bestWord.getD []) = true))) := by
  simp only [beatsB, Option.isNone_iff_eq_none, Bool.or_eq_true, Bool.and_eq_true,
    decide_eq_true_eq, beq_iff_eq]
  tauto

/-- If `(score, w)` did not beat the accumulator and `(score', w')` did,
then `(score, w)` does not beat the updated accumulator either. -/
theorem beatsB_trans_false (score : Int) (w : List Char) (score' : Int) (w' : List Char)
    (st : BWBest) (h1 : beatsB score w st = false) (h2 : beatsB score' w' st = true) :
    beatsB score w ⟨some w', score', w'.length⟩ = false := by
  obtain ⟨bw, bs, bl⟩ := st
  rw [Bool.eq_false_iff] at h1 ⊢
  intro hg
  rw [beatsB_eq_true_iff] at hg h2
  apply h1
  rw [beatsB_eq_true_iff]
  dsimp only at hg h2 ⊢
  rcases hg with hg | ⟨hge, hgl⟩ | ⟨hge, hgl, hgw⟩
  · rcases h2 with h2 | ⟨h2e, _⟩ | ⟨h2e, _, _⟩
    · exact Or.inl (by omega)
    · exact Or.inl (by omega)
    · exact Or.inl (by omega)
  · rcases h2 with h2 | ⟨h2e, h2l⟩ | ⟨h2e, h2l, _⟩
    · exact Or.inl (by omega)
    · exact Or.inr (Or.inl ⟨by omega, by omega⟩)
    · exact Or.inr (Or.inl ⟨by omega, by omega⟩)
  · rcases hgw with hnone | hlt
    · cases hnone
    · rcases h2 with h2 | ⟨h2e, h2l⟩ | ⟨h2e, h2l, h2w⟩
      · exact Or.inl (by omega)
      · exact Or.inr (Or.inl ⟨by omega, by omega⟩)
      · rcases h2w with hbn | hblt
        · exact Or.inr (Or.inr ⟨by omega, by omega, Or.inl hbn⟩)
        · dsimp only [Option.getD] at hlt
          exact Or.inr (Or.inr ⟨by omega, by omega, Or.inr (jsLtChars_trans hlt hblt)⟩)

/-- A freshly recorded candidate never beats its own record. -/
theorem beatsB_self_false (score : Int) (w : List Char) :
    beatsB score w ⟨some w, score, w.length⟩ = false := by
  rw [Bool.eq_false_iff]
  intro hcontra
  rw [beatsB_eq_true_iff] at hcontra
  rcases hcontra with h | ⟨_, h⟩ | ⟨_, _, h | h⟩
  · exact lt_irrefl _ h
  · exact lt_irrefl _ h
  · cases h
  · simp only [Option.getD] at h
    rw [jsLtChars_irrefl] at h
    cases h

theorem tryUpdate_mono (dict : List (List Char)) (m : Option Modifier) (seq : List WTile)
    (cur : List Char) (up : Bool) (st : BWBest) (s : Int) (w : List Char)
    (h : beatsB s w st = false) :
    beatsB s w (tryUpdate dict m seq cur up st) = false := by
  unfold tryUpdate
  by_cases h1 : (up && decide (2 ≤ cur.length) && decide (cur ∈ dict)) = true
  · simp only [h1, if_true]
    by_cases h2 : beatsB (scoreSequence seq m) cur st = true
    · simp only [h2, if_true]
      exact beatsB_trans_false s w _ cur st h h2
    · simp only [Bool.not_eq_true] at h2
      simp [h2, h]
  · simp only [Bool.not_eq_true] at h1
    simp [h1, h]

theorem tryUpdate_reach (dict : List (List Char)) (m : Option Modifier) (seq : List WTile)
    (st : BWBest) :
    tryUpdate dict m seq (wordSeq seq) (seq.any (·.isPlayer)) st = st ∨
      (HitSeq dict seq ∧
        tryUpdate dict m seq (wordSeq seq) (seq.any (·.isPlayer)) st = nodeState m seq) := by
  unfold tryUpdate
  by_cases h1 : (seq.any (·.isPlayer) && decide (2 ≤ (wordSeq seq).length) &&
      decide (wordSeq seq ∈ dict)) = true
  · simp only [h1, if_true]
    by_cases h2 : beatsB (scoreSequence seq m) (wordSeq seq) st = true
    · simp only [h2, if_true]
      right
      simp only [Bool.and_eq_true, decide_eq_true_eq] at h1
      exact ⟨⟨h1.1.1, h1.1.2, h1.2⟩, rfl⟩
    · simp only [Bool.not_eq_true] at h2
      simp [h2]
  · simp only [Bool.not_eq_true] at h1
    simp [h1]

/-- After the node `seq` has been offered to the accumulator, the node no
longer beats it. -/
theorem tryUpdate_self (dict : List (List Char)) (m : Option Modifier) (seq : List WTile)
    (st : BWBest) (hhit : HitSeq dict seq) :
    beatsB (scoreSequence seq m) (wordSeq seq)
      (tryUpdate dict m seq (wordSeq seq) (seq.any (·.isPlayer)) st) = false := by
  unfold tryUpdate
  rcases hhit with ⟨hup, hlen, hdict⟩
  have h1 : (seq.any (·.isPlayer) && decide (2 ≤ (wordSeq seq).length) &&
      decide (wordSeq seq ∈ dict)) = true := by
    simp [hup, hlen, hdict]
  simp only [h1, if_true]
  by_cases h2 : beatsB (scoreSequence seq m) (wordSeq seq) st = true
  · simp only [h2, if_true]
    exact beatsB_self_false _ _
  · simp only [Bool.not_eq_true] at h2
    simp [h2]

theorem dfsList_succ_eq (tiles : List WTile) (dict : List (List Char)) (m : Option Modifier)
    (fuel : Nat) (avail : List Nat) (seq : List WTile) (cur : List Char) (up : Bool)
    (st : BWBest) :
    dfsList tiles dict m (fuel + 1) avail seq cur up st
      = avail.foldl (dfsStep tiles dict m fuel avail seq cur up) st := rfl

theorem extFrom_subset : ∀ (avail ext : List Nat), ExtFrom avail ext → ∀ j ∈ ext, j ∈ avail := by
  intro avail ext
  induction ext generalizing avail with
  | nil => intro _ j hj; cases hj
  | cons a rest ih =>
    rintro ⟨ha, hrest⟩ j hj
    rcases List.mem_cons.mp hj with h | h
    · exact h ▸ ha
    · exact List.mem_of_mem_erase (ih (avail.erase a) hrest j h)

theorem extFrom_nodup : ∀ (avail ext : List Nat), avail.Nodup → ExtFrom avail ext → ext.Nodup := by
  intro avail ext
  induction ext generalizing avail with
  | nil => intro _ _; exact List.nodup_nil
  | cons a rest ih =>
    rintro hnd ⟨ha, hrest⟩
    refine List.nodup_cons.mpr ⟨?_, ih (avail.erase a) (hnd.erase a) hrest⟩
    intro hmem
    have := extFrom_subset (avail.erase a) rest hrest a hmem
    rw [hnd.mem_erase_iff] at this
    exact this.1 rfl

theorem extFrom_of_nodup_subset : ∀ (avail ext : List Nat), avail.Nodup → ext.Nodup →
    (∀ j ∈ ext, j ∈ avail) → ExtFrom avail ext := by
  intro avail ext
  induction ext generalizing avail with
  | nil => intro _ _ _; trivial
  | cons a rest ih =>
    intro hndA hndE hsub
    refine ⟨hsub a (List.mem_cons_self a rest), ?_⟩
    apply ih (avail.erase a) (hndA.erase a) (List.nodup_cons.mp hndE).2
    intro j hj
    rw [hndA.mem_erase_iff]
    refine ⟨?_, hsub j (List.mem_cons_of_mem a hj)⟩
    intro hja
    exact (List.nodup_cons.mp hndE).1 (hja ▸ hj)

/-- Correctness of one exploration level's loop: the fold over `toProcess`
(a) never lets a previously non-beating key beat it (monotonicity),
(b) is the incoming accumulator or records an actually explorable hit, and
(c) is not beaten by any hit explorable from this loop position. -/
theorem dfsLoop_spec (tiles : List WTile) (dict : List (List Char)) (m : Option Modifier) :
    ∀ (fuel : Nat) (toProcess avail : List Nat) (seq : List WTile) (st : BWBest),
      toProcess ⊆ avail → avail.Nodup →
      avail.length + seq.length = tiles.length → avail.length ≤ fuel + 1 →
      (∀ s w, beatsB s w st = false →
        beatsB s w (List.foldl (dfsStep tiles dict m fuel avail seq (wordSeq seq)
          (seq.any (·.isPlayer))) st toProcess) = false) ∧
      (List.foldl (dfsStep tiles dict m fuel avail seq (wordSeq seq) (seq.any (·.isPlayer)))
          st toProcess = st ∨
        ∃ ext, Explorable toProcess avail ext ∧ HitSeq dict (seq ++ seqOf tiles ext) ∧
          List.foldl (dfsStep tiles dict m fuel avail seq (wordSeq seq) (seq.any (·.isPlayer)))
            st toProcess = nodeState m (seq ++ seqOf tiles ext)) ∧
      (∀ ext, Explorable toProcess avail ext → HitSeq dict (seq ++ seqOf tiles ext) →
        beatsB (scoreSequence (seq ++ seqOf tiles ext) m) (wordSeq (seq ++ seqOf tiles ext))
          (List.foldl (dfsStep tiles dict m fuel avail seq (wordSeq seq)
            (seq.any (·.isPlayer))) st toProcess) = false) := by
  intro fuel
  induction fuel with
  | zero =>
    intro toProcess
    induction toProcess with
    | nil =>
      intro avail seq st hsub hnd hlen hfuel
      refine ⟨fun s w h => by simpa using h, Or.inl rfl, fun ext hext _ => ?_⟩
      cases ext with
      | nil => cases hext
      | cons j rest => cases hext.1
    | cons i is ihtp =>
      intro avail seq st hsub hnd hlen hfuel
      have hi : i ∈ avail := hsub (List.mem_cons_self i is)
      have hsub' : is ⊆ avail := fun _ hx => hsub (List.mem_cons_of_mem i hx)
      have havpos : 1 ≤ avail.length := List.length_pos_of_mem hi
      have herlen : (avail.erase i).length = avail.length - 1 :=
        List.length_erase_of_mem hi
      have hcur2 : wordSeq seq ++ (tileAt tiles i).lUpper
          = wordSeq (seq ++ [tileAt tiles i]) := by
        simp [wordSeq]
      have hup2 : (seq.any (·.isPlayer) || (tileAt tiles i).isPlayer)
          = (seq ++ [tileAt tiles i]).any (·.isPlayer) := by
        simp
      have hlen2 : (seq ++ [tileAt tiles i]).length = seq.length + 1 := by simp
      have hst1 := tryUpdate_reach dict m (seq ++ [tileAt tiles i]) st
      have hg : ¬ (seq ++ [tileAt tiles i]).length < tiles.length := by
        rw [hlen2]; omega
      have hernil : avail.erase i = [] := by
        have : (avail.erase i).length = 0 := by rw [herlen]; omega
        exact List.eq_nil_of_length_eq_zero this
      have hstep : dfsStep tiles dict m 0 avail seq (wordSeq seq) (seq.any (·.isPlayer)) st i
          = tryUpdate dict m (seq ++ [tileAt tiles i]) (wordSeq (seq ++ [tileAt tiles i]))
              ((seq ++ [tileAt tiles i]).any (·.isPlayer)) st := by
        simp only [dfsStep]
        rw [hcur2, hup2, if_neg hg]
      obtain ⟨M3, R3, D3⟩ := ihtp avail seq
        (tryUpdate dict m (seq ++ [tileAt tiles i]) (wordSeq (seq ++ [tileAt tiles i]))
          ((seq ++ [tileAt tiles i]).any (·.isPlayer)) st)
        hsub' hnd hlen hfuel
      have hunfold : List.foldl (dfsStep tiles dict m 0 avail seq (wordSeq seq)
            (seq.any (·.isPlayer))) st (i :: is)
          = List.foldl (dfsStep tiles dict m 0 avail seq (wordSeq seq) (seq.any (·.isPlayer)))
              (tryUpdate dict m (seq ++ [tileAt tiles i]) (wordSeq (seq ++ [tileAt tiles i]))
                ((seq ++ [tileAt tiles i]).any (·.isPlayer)) st) is := by
        rw [List.foldl_cons, hstep]
      refine ⟨?_, ?_, ?_⟩
      · intro s w h
        rw [hunfold]
        exact M3 s w (tryUpdate_mono dict m _ _ _ st s w h)
      · rw [hunfold]
        rcases R3 with h3 | ⟨ext3, hex3, hhit3, heq3⟩
        · rw [h3]
          rcases hst1 with hA | ⟨hhit1, hB⟩
          · rw [hA]; exact Or.inl rfl
          · rw [hB]
            right
            refine ⟨[i], ⟨List.mem_cons_self i is, trivial⟩, ?_, ?_⟩
            · simpa [seqOf, tileAt] using hhit1
            · simp [nodeState, seqOf, tileAt]
        · right
          refine ⟨ext3, ?_, hhit3, heq3⟩
          cases ext3 with
          | nil => cases hex3
          | cons j rest => exact ⟨List.mem_cons_of_mem i hex3.1, hex3.2⟩
      · intro ext hext hhit
        rw [hunfold]
        cases ext with
        | nil => cases hext
        | cons j rest =>
          obtain ⟨hj, hrest⟩ := hext
          rcases List.mem_cons.mp hj with hji | hjis
          · subst hji
            cases rest with
            | nil =>
              have hone : seq ++ seqOf tiles [j] = seq ++ [tileAt tiles j] := by
                simp [seqOf]
              rw [hone] at hhit ⊢
              exact M3 _ _ (tryUpdate_self dict m _ st hhit)
            | cons r rs =>
              obtain ⟨hr, _⟩ := hrest
              rw [hernil] at hr
              cases hr
          · exact D3 (j :: rest) ⟨hjis, hrest⟩ hhit
  | succ fuel ihf =>
    intro toProcess
    induction toProcess with
    | nil =>
      intro avail seq st hsub hnd hlen hfuel
      refine ⟨fun s w h => by simpa using h, Or.inl rfl, fun ext hext _ => ?_⟩
      cases ext with
      | nil => cases hext
      | cons j rest => cases hext.1
    | cons i is ihtp =>
      intro avail seq st hsub hnd hlen hfuel
      have hi : i ∈ avail := hsub (List.mem_cons_self i is)
      have hsub' : is ⊆ avail := fun _ hx => hsub (List.mem_cons_of_mem i hx)
      have havpos : 1 ≤ avail.length := List.length_pos_of_mem hi
      have herlen : (avail.erase i).length = avail.length - 1 :=
        List.length_erase_of_mem hi
      have hcur2 : wordSeq seq ++ (tileAt tiles i).lUpper
          = wordSeq (seq ++ [tileAt tiles i]) := by
        simp [wordSeq]
      have hup2 : (seq.any (·.isPlayer) || (tileAt tiles i).isPlayer)
          = (seq ++ [tileAt tiles i]).any (·.isPlayer) := by
        simp
      have hlen2 : (seq ++ [tileAt tiles i]).length = seq.length + 1 := by simp
      have hst1 := tryUpdate_reach dict m (seq ++ [tileAt tiles i]) st
      by_cases hg : seq.length + 1 < tiles.length
      · have hlen' : (avail.erase i).length + (seq ++ [tileAt tiles i]).length
            = tiles.length := by
          rw [herlen, hlen2]; omega
        have hfuel' : (avail.erase i).length ≤ fuel + 1 := by rw [herlen]; omega
        obtain ⟨M2, R2, D2⟩ := ihf (avail.erase i) (avail.erase i) (seq ++ [tileAt tiles i])
          (tryUpdate dict m (seq ++ [tileAt tiles i]) (wordSeq (seq ++ [tileAt tiles i]))
            ((seq ++ [tileAt tiles i]).any (·.isPlayer)) st)
          (fun _ hx => hx) (hnd.erase i) hlen' hfuel'
        have hstep : dfsStep tiles dict m (fuel + 1) avail seq (wordSeq seq)
              (seq.any (·.isPlayer)) st i
            = List.foldl (dfsStep tiles dict m fuel (avail.erase i) (seq ++ [tileAt tiles i])
                (wordSeq (seq ++ [tileAt tiles i])) ((seq ++ [tileAt tiles i]).any (·.isPlayer)))
                (tryUpdate dict m (seq ++ [tileAt tiles i]) (wordSeq (seq ++ [tileAt tiles i]))
                  ((seq ++ [tileAt tiles i]).any (·.isPlayer)) st) (avail.erase i) := by
          simp only [dfsStep]
          rw [hcur2, hup2, if_pos (by simpa [hlen2] using hg), dfsList_succ_eq]
        obtain ⟨M3, R3, D3⟩ := ihtp avail seq
          (List.foldl (dfsStep tiles dict m fuel (avail.erase i) (seq ++ [tileAt tiles i])
              (wordSeq (seq ++ [tileAt tiles i])) ((seq ++ [tileAt tiles i]).any (·.isPlayer)))
            (tryUpdate dict m (seq ++ [tileAt tiles i]) (wordSeq (seq ++ [tileAt tiles i]))
              ((seq ++ [tileAt tiles i]).any (·.isPlayer)) st) (avail.erase i))
          hsub' hnd hlen hfuel
        have hunfold : List.foldl (dfsStep tiles dict m (fuel + 1) avail seq (wordSeq seq)
              (seq.any (·.isPlayer))) st (i :: is)
            = List.foldl (dfsStep tiles dict m (fuel + 1) avail seq (wordSeq seq)
                (seq.any (·.isPlayer)))
                (List.foldl (dfsStep tiles dict m fuel (avail.erase i) (seq ++ [tileAt tiles i])
                    (wordSeq (seq ++ [tileAt tiles i]))
                    ((seq ++ [tileAt tiles i]).any (·.isPlayer)))
                  (tryUpdate dict m (seq ++ [tileAt tiles i]) (wordSeq (seq ++ [tileAt tiles i]))
                    ((seq ++ [tileAt tiles i]).any (·.isPlayer)) st) (avail.erase i)) is := by
          rw [List.foldl_cons, hstep]
        refine ⟨?_, ?_, ?_⟩
        · intro s w h
          rw [hunfold]
          exact M3 s w (M2 s w (tryUpdate_mono dict m _ _ _ st s w h))
        · rw [hunfold]
          rcases R3 with h3 | ⟨ext3, hex3, hhit3, heq3⟩
          · rw [h3]
            rcases R2 with h2 | ⟨ext2, hex2, hhit2, heq2⟩
            · rw [h2]
              rcases hst1 with hA | ⟨hhit1, hB⟩
              · rw [hA]; exact Or.inl rfl
              · rw [hB]
                right
                refine ⟨[i], ⟨List.mem_cons_self i is, trivial⟩, ?_, ?_⟩
                · simpa [seqOf, tileAt] using hhit1
                · simp [nodeState, seqOf, tileAt]
            · rw [heq2]
              right
              have hnode : (seq ++ [tileAt tiles i]) ++ seqOf tiles ext2
                  = seq ++ seqOf tiles (i :: ext2) := by
                simp [seqOf]
              refine ⟨i :: ext2, ⟨List.mem_cons_self i is, ?_⟩, ?_, ?_⟩
              · cases ext2 with
                | nil => trivial
                | cons j r => exact hex2
              · rw [← hnode]; exact hhit2
              · rw [← hnode]
          · right
            refine ⟨ext3, ?_, hhit3, heq3⟩
            cases ext3 with
            | nil => cases hex3
            | cons j rest => exact ⟨List.mem_cons_of_mem i hex3.1, hex3.2⟩
        · intro ext hext hhit
          rw [hunfold]
          cases ext with
          | nil => cases hext
          | cons j rest =>
            obtain ⟨hj, hrest⟩ := hext
            rcases List.mem_cons.mp hj with hji | hjis
            · subst hji
              have hnode : seq ++ seqOf tiles (j :: rest)
                  = (seq ++ [tileAt tiles j]) ++ seqOf tiles rest := by
                simp [seqOf]
              cases rest with
              | nil =>
                have hone : seq ++ seqOf tiles [j] = seq ++ [tileAt tiles j] := by
                  simp [seqOf]
                rw [hone] at hhit ⊢
                exact M3 _ _ (M2 _ _ (tryUpdate_self dict m _ st hhit))
              | cons r rs =>
                obtain ⟨hr, hrs⟩ := hrest
                rw [hnode] at hhit ⊢
                exact M3 _ _ (D2 (r :: rs) ⟨hr, hrs⟩ hhit)
            · exact D3 (j :: rest) ⟨hjis, hrest⟩ hhit
      · have hgneg : ¬ (seq ++ [tileAt tiles i]).length < tiles.length := by
          rw [hlen2]; omega
        have hernil : avail.erase i = [] := by
          have h0 : (avail.erase i).length = 0 := by
            rw [herlen]; omega
          exact List.eq_nil_of_length_eq_zero h0
        have hstep : dfsStep tiles dict m (fuel + 1) avail seq (wordSeq seq)
              (seq.any (·.isPlayer)) st i
            = tryUpdate dict m (seq ++ [tileAt tiles i]) (wordSeq (seq ++ [tileAt tiles i]))
                ((seq ++ [tileAt tiles i]).any (·.isPlayer)) st := by
          simp only [dfsStep]
          rw [hcur2, hup2, if_neg hgneg]
        obtain ⟨M3, R3, D3⟩ := ihtp avail seq
          (tryUpdate dict m (seq ++ [tileAt tiles i]) (wordSeq (seq ++ [tileAt tiles i]))
            ((seq ++ [tileAt tiles i]).any (·.isPlayer)) st)
          hsub' hnd hlen hfuel
        have hunfold : List.foldl (dfsStep tiles dict m (fuel + 1) avail seq (wordSeq seq)
              (seq.any (·.isPlayer))) st (i :: is)
            = List.foldl (dfsStep tiles dict m (fuel + 1) avail seq (wordSeq seq)
                (seq.any (·.isPlayer)))
                (tryUpdate dict m (seq ++ [tileAt tiles i]) (wordSeq (seq ++ [tileAt tiles i]))
                  ((seq ++ [tileAt tiles i]).any (·.isPlayer)) st) is := by
          rw [List.foldl_cons, hstep]
        refine ⟨?_, ?_, ?_⟩
        · intro s w h
          rw [hunfold]
          exact M3 s w (tryUpdate_mono dict m _ _ _ st s w h)
        · rw [hunfold]
          rcases R3 with h3 | ⟨ext3, hex3, hhit3, heq3⟩
          · rw [h3]
            rcases hst1 with hA | ⟨hhit1, hB⟩
            · rw [hA]; exact Or.inl rfl
            · rw [hB]
              right
              refine ⟨[i], ⟨List.mem_cons_self i is, trivial⟩, ?_, ?_⟩
              · simpa [seqOf, tileAt] using hhit1
              · simp [nodeState, seqOf, tileAt]
          · right
            refine ⟨ext3, ?_, hhit3, heq3⟩
            cases ext3 with
            | nil => cases hex3
            | cons j rest => exact ⟨List.mem_cons_of_mem i hex3.1, hex3.2⟩
        · intro ext hext hhit
          rw [hunfold]
          cases ext with
          | nil => cases hext
          | cons j rest =>
            obtain ⟨hj, hrest⟩ := hext
            rcases List.mem_cons.mp hj with hji | hjis
            · subst hji
              cases rest with
              | nil =>
                have hone : seq ++ seqOf tiles [j] = seq ++ [tileAt tiles j] := by
                  simp [seqOf]
                rw [hone] at hhit ⊢
                exact M3 _ _ (tryUpdate_self dict m _ st hhit)
              | cons r rs =>
                obtain ⟨hr, _⟩ := hrest
                rw [hernil] at hr
                cases hr
            · exact D3 (j :: rest) ⟨hjis, hrest⟩ hhit

/-- Correctness of `dfsList`: the loop lemma specialized to a full level
over the whole unused pool. -/
theorem dfsList_spec (tiles : List WTile) (dict : List (List Char)) (m : Option Modifier)
    (fuel : Nat) (avail : List Nat) (seq : List WTile) (st : BWBest)
    (hnd : avail.Nodup) (hlen : avail.length + seq.length = tiles.length)
    (hfuel : avail.length ≤ fuel) :
    (∀ s w, beatsB s w st = false →
      beatsB s w (dfsList tiles dict m fuel avail seq (wordSeq seq)
        (seq.any (·.isPlayer)) st) = false) ∧
    (dfsList tiles dict m fuel avail seq (wordSeq seq) (seq.any (·.isPlayer)) st = st ∨
      ∃ ext, Explorable avail avail ext ∧ HitSeq dict (seq ++ seqOf tiles ext) ∧
        dfsList tiles dict m fuel avail seq (wordSeq seq) (seq.any (·.isPlayer)) st
          = nodeState m (seq ++ seqOf tiles ext)) ∧
    (∀ ext, Explorable avail avail ext → HitSeq dict (seq ++ seqOf tiles ext) →
      beatsB (scoreSequence (seq ++ seqOf tiles ext) m) (wordSeq (seq ++ seqOf tiles ext))
        (dfsList tiles dict m fuel avail seq (wordSeq seq) (seq.any (·.isPlayer)) st)
          = false) := by
  cases fuel with
  | zero =>
    have havail : avail = [] := List.eq_nil_of_length_eq_zero (Nat.le_zero.mp hfuel)
    subst havail
    refine ⟨fun s w h => by simpa [dfsList] using h, Or.inl (by simp [dfsList]),
      fun ext hext _ => ?_⟩
    cases ext with
    | nil => cases hext
    | cons j rest => cases hext.1
  | succ fuel =>
    rw [dfsList_succ_eq]
    exact dfsLoop_spec tiles dict m fuel avail avail seq st (fun _ hx => hx) hnd hlen
      (by omega)

/-- **C5.** Provided every dictionary word has at least two letters (the
dictionary loader only admits such words), the best-word search returns
either no word, or a word `w` such that: `w` is in the dictionary; `w` is
spelled by an ordering of distinct available tiles including at least one
player tile, whose score is the returned best score; no candidate scores
strictly higher; among equal-scoring candidates none is longer; and among
equal-scoring candidates of equal length none is lexicographically smaller
than `w`. -/
theorem computeBestWord_optimal (communityDice playerDice : List STile)
    (modifier : Option Modifier) (dict : List (List Char))
    (hdict : ∀ v ∈ dict, 2 ≤ v.length) (w : List Char)
    (hw : (computeBestWord communityDice playerDice modifier dict).1 = some w) :
    w ∈ dict ∧
      (∃ l, IsCandidate (mkTiles communityDice playerDice) dict l ∧
        w = wordSeq (seqOf (mkTiles communityDice playerDice) l) ∧
        (computeBestWord communityDice playerDice modifier dict).2
          = scoreSequence (seqOf (mkTiles communityDice playerDice) l) modifier) ∧
      (∀ l, IsCandidate (mkTiles communityDice playerDice) dict l →
        scoreSequence (seqOf (mkTiles communityDice playerDice) l) modifier
            ≤ (computeBestWord communityDice playerDice modifier dict).2 ∧
          (scoreSequence (seqOf (mkTiles communityDice playerDice) l) modifier
              = (computeBestWord communityDice playerDice modifier dict).2 →
            (wordSeq (seqOf (mkTiles communityDice playerDice) l)).length ≤ w.length) ∧
          (scoreSequence (seqOf (mkTiles communityDice playerDice) l) modifier
              = (computeBestWord communityDice playerDice modifier dict).2 →
            (wordSeq (seqOf (mkTiles communityDice playerDice) l)).length = w.length →
            jsLtChars (wordSeq (seqOf (mkTiles communityDice playerDice) l)) w = false)) := by
  obtain ⟨M, R, D⟩ := dfsList_spec (mkTiles communityDice playerDice) dict modifier
    (mkTiles communityDice playerDice).length
    (List.range (mkTiles communityDice playerDice).length)
    [] ⟨none, 0, 0⟩ (List.nodup_range _) (by simp) (by simp)
  have hcall : computeBestWord communityDice playerDice modifier dict
      = ((dfsList (mkTiles communityDice playerDice) dict modifier
          (mkTiles communityDice playerDice).length
          (List.range (mkTiles communityDice playerDice).length)
          [] (wordSeq []) (([] : List WTile).any (·.isPlayer)) ⟨none, 0, 0⟩).bestWord,
        (dfsList (mkTiles communityDice playerDice) dict modifier
          (mkTiles communityDice playerDice).length
          (List.range (mkTiles communityDice playerDice).length)
          [] (wordSeq []) (([] : List WTile).any (·.isPlayer)) ⟨none, 0, 0⟩).bestScore) := rfl
  rcases R with hinit | ⟨ext, hexp, hhit, heq⟩
  · rw [hcall] at hw
    rw [hinit] at hw
    cases hw
  · have hnil : ([] : List WTile) ++ seqOf (mkTiles communityDice playerDice) ext
        = seqOf (mkTiles communityDice playerDice) ext := List.nil_append _
    rw [hnil] at hhit heq
    rw [hcall] at hw ⊢
    rw [heq] at hw ⊢
    simp only [nodeState] at hw ⊢
    have hwext : w = wordSeq (seqOf (mkTiles communityDice playerDice) ext) := by
      cases hw; rfl
    subst hwext
    obtain ⟨hany, hlen2, hmem⟩ := hhit
    have hextfrom : ExtFrom (List.range (mkTiles communityDice playerDice).length) ext := by
      cases ext with
      | nil => cases hexp
      | cons j rest => exact hexp
    have hndext : ext.Nodup := extFrom_nodup _ ext (List.nodup_range _) hextfrom
    have hbd : ∀ j ∈ ext, j < (mkTiles communityDice playerDice).length := by
      intro j hj
      exact List.mem_range.mp (extFrom_subset _ ext hextfrom j hj)
    have hne : ext ≠ [] := by
      cases ext with
      | nil => cases hexp
      | cons j rest => exact List.cons_ne_nil j rest
    refine ⟨hmem, ⟨ext, ⟨hne, hndext, hbd, hany, hmem⟩, rfl, rfl⟩, ?_⟩
    intro l hl
    obtain ⟨hlne, hlnd, hlbd, hlany, hlmem⟩ := hl
    have hlfrom : ExtFrom (List.range (mkTiles communityDice playerDice).length) l :=
      extFrom_of_nodup_subset _ l (List.nodup_range _) hlnd
        (fun j hj => List.mem_range.mpr (hlbd j hj))
    have hlexp : Explorable (List.range (mkTiles communityDice playerDice).length)
        (List.range (mkTiles communityDice playerDice).length) l := by
      cases l with
      | nil => exact absurd rfl hlne
      | cons j rest => exact hlfrom
    have hlhit : HitSeq dict ([] ++ seqOf (mkTiles communityDice playerDice) l) := by
      rw [List.nil_append]
      exact ⟨hlany, hdict _ hlmem, hlmem⟩
    have hdom := D l hlexp hlhit
    rw [List.nil_append] at hdom
    rw [heq] at hdom
    rw [Bool.eq_false_iff] at hdom
    constructor
    · by_contra hgt
      apply hdom
      rw [beatsB_eq_true_iff]
      exact Or.inl (by dsimp only [nodeState]; omega)
    constructor
    · intro hse
      by_contra hlonger
      apply hdom
      rw [beatsB_eq_true_iff]
      exact Or.inr (Or.inl ⟨by dsimp only [nodeState]; omega, by dsimp only [nodeState]; omega⟩)
    · intro hse hleq
      rw [Bool.eq_false_iff]
      intro hlt
      apply hdom
      rw [beatsB_eq_true_iff]
      refine Or.inr (Or.inr ⟨by dsimp only [nodeState]; omega, by dsimp only [nodeState]; omega,
        Or.inr ?_⟩)
      dsimp only [nodeState, Option.getD]
      exact hlt

theorem computeBestWord_optimal_witness :
    (∀ v ∈ dictC5, 2 ≤ v.length) ∧
      (computeBestWord cdC5 pdC5 (some modC5) dictC5).1 = some ['A', 'T'] ∧
      (['A', 'T'] ∈ dictC5 ∧
        (∃ l, IsCandidate (mkTiles cdC5 pdC5) dictC5 l ∧
          ['A', 'T'] = wordSeq (seqOf (mkTiles cdC5 pdC5) l) ∧
          (computeBestWord cdC5 pdC5 (some modC5) dictC5).2
            = scoreSequence (seqOf (mkTiles cdC5 pdC5) l) (some modC5)) ∧
        (∀ l, IsCandidate (mkTiles cdC5 pdC5) dictC5 l →
          scoreSequence (seqOf (mkTiles cdC5 pdC5) l) (some modC5)
              ≤ (computeBestWord cdC5 pdC5 (some modC5) dictC5).2 ∧
            (scoreSequence (seqOf (mkTiles cdC5 pdC5) l) (some modC5)
                = (computeBestWord cdC5 pdC5 (some modC5) dictC5).2 →
              (wordSeq (seqOf (mkTiles cdC5 pdC5) l)).length ≤ (['A', 'T'] : List Char).length) ∧
            (scoreSequence (seqOf (mkTiles cdC5 pdC5) l) (some modC5)
                = (computeBestWord cdC5 pdC5 (some modC5) dictC5).2 →
              (wordSeq (seqOf (mkTiles cdC5 pdC5) l)).length = (['A', 'T'] : List Char).length →
              jsLtChars (wordSeq (seqOf (mkTiles cdC5 pdC5) l)) ['A', 'T'] = false))) :=
  ⟨by decide, by decide,
    computeBestWord_optimal cdC5 pdC5 (some modC5) dictC5 (by decide) ['A', 'T'] (by decide)⟩

/-- **C1 (failing run).** The claim says only the first new submission of
a round halves the timer.  In the code the `timerHalved` flag is reset
each round but never consulted or set by the submission handlers, so a
second new submission by a different player halves the timer again: with
three players and 75 s remaining, player A's submission fires a halving
event (75 → 37) and player B's subsequent first submission fires a second
halving event (37 → 18), the flag still reading `false`. -/
theorem timer_halved_twice_in_one_round :
    (submitWordHandler lobbyC1 "A" ⟨['C', 'A', 'T'], 6, "", true⟩ 1000).2.halvedFired = true ∧
      (submitWordHandler lobbyC1 "A" ⟨['C', 'A', 'T'], 6, "", true⟩ 1000).1.timerRemaining = 37 ∧
      (submitWordHandler (submitWordHandler lobbyC1 "A" ⟨['C', 'A', 'T'], 6, "", true⟩ 1000).1
        "B" ⟨['C', 'A', 'T'], 6, "", true⟩ 1001).2.halvedFired = true ∧
      (submitWordHandler (submitWordHandler lobbyC1 "A" ⟨['C', 'A', 'T'], 6, "", true⟩ 1000).1
        "B" ⟨['C', 'A', 'T'], 6, "", true⟩ 1001).1.timerRemaining = 18 ∧
      (submitWordHandler (submitWordHandler lobbyC1 "A" ⟨['C', 'A', 'T'], 6, "", true⟩ 1000).1
        "B" ⟨['C', 'A', 'T'], 6, "", true⟩ 1001).1.timerHalved = false := by
  decide

/-- **C2 (counterexample).** The claim says every stored submission's
`isValid`, `score` and `breakdown` are produced by server-side validation
and never taken on trust from the client.  For a human submission the
handler stores the client-supplied values verbatim: a client claiming the
dictionary-invalid word `ZZZZ` is valid and worth 999 points gets exactly
that stored, while the server's own validator rejects the same word. -/
theorem client_values_stored_unvalidated :
    lookupAssoc (submitWordHandler lobbyC1 "A" ⟨['Z', 'Z', 'Z', 'Z'], 999, "", true⟩ 1000).1.playerSubmissions
        "A" = some ⟨['Z', 'Z', 'Z', 'Z'], 999, "", true, [], 1000⟩ ∧
      (validateAndScoreBotWord dictC2 lobbyC1.communityDice [] modC2
        ['Z', 'Z', 'Z', 'Z'] [RefId.player 0]).isValid = false := by
  decide

/-- **C3 (counterexample).** The claim says scores `[50, 50, 30]` yield
places `[1, 1, 2]`.  The code's competition ranking continues at the
previous index plus one: the 30-point submission is placed 3rd, not
2nd. -/
theorem placement_example_cex :
    (((calculatePlacements playersC3 subsC3).1.find? (fun r => r.visibleId == "P3")).map
        (·.place) = some (some 3)) ∧
      ¬ ((((calculatePlacements playersC3 subsC3).1.find? (fun r => r.visibleId == "P3")).map
        (·.place)) = some (some 2)) := by
  decide

/-- **C3 (amended).** For valid submissions scoring `[50, 50, 30]` with a
fourth player having made no submission, the placement computation
assigns places `[1, 1, 3]` (competition ranking: the score after a
two-way tie for 1st takes place 3), awards placement points `[3, 3, 1]`,
and gives the fourth player place `null`, 0 points and the
`noSubmission` flag. -/
theorem placement_example_amended :
    (((calculatePlacements playersC3 subsC3).1.find? (fun r => r.visibleId == "P1")).map
        (fun r => (r.place, r.pointsEarned)) = some (some 1, 3)) ∧
      (((calculatePlacements playersC3 subsC3).1.find? (fun r => r.visibleId == "P2")).map
        (fun r => (r.place, r.pointsEarned)) = some (some 1, 3)) ∧
      (((calculatePlacements playersC3 subsC3).1.find? (fun r => r.visibleId == "P3")).map
        (fun r => (r.place, r.pointsEarned)) = some (some 3, 1)) ∧
      (((calculatePlacements playersC3 subsC3).1.find? (fun r => r.visibleId == "P4")).map
        (fun r => (r.place, r.pointsEarned, r.noSubmission)) = some (none, 0, true)) ∧
      ((calculatePlacements playersC3 subsC3).2.map (·.totalPoints) = [3, 3, 1, 0]) := by
  decide

/-! ## Claim C7: reveal is idempotent -/

theorem revealResults_of_revealed (L : Lobby) (h : L.revealed = true) :
    revealResults L = L := by
  unfold revealResults
  rw [if_pos h]

theorem revealResults_revealed (L : Lobby) : (revealResults L).revealed = true ∨
    revealResults L = L ∧ L.revealed = true := by
  by_cases h : L.revealed = true
  · exact Or.inr ⟨revealResults_of_revealed L h, h⟩
  · left
    unfold revealResults
    rw [if_neg h]

/-- **C7.** Reveal is idempotent: a reveal on an already-revealed session
is a no-op, and after two consecutive invocations on an unrevealed
session whose history has no record for the current round yet, the
history holds exactly one record for that round and the player map (in
particular every `totalPoints`) is exactly that of the single reveal. -/
theorem reveal_idempotent (lobby : Lobby) (hrev : lobby.revealed = false)
    (hcount : lobby.roundHistory.countP
      (fun e => e.roundNumber == lobby.roundNumber) = 0) :
    (∀ L : Lobby, L.revealed = true → revealResults L = L) ∧
      revealResults (revealResults lobby) = revealResults lobby ∧
      (revealResults (revealResults lobby)).roundHistory.countP
        (fun e => e.roundNumber == lobby.roundNumber) = 1 ∧
      (revealResults (revealResults lobby)).players = (revealResults lobby).players := by
  have h1 : (revealResults lobby).revealed = true := by
    rcases revealResults_revealed lobby with h | ⟨_, h⟩
    · exact h
    · rw [h] at hrev; cases hrev
  have h2 : revealResults (revealResults lobby) = revealResults lobby :=
    revealResults_of_revealed _ h1
  refine ⟨revealResults_of_revealed, h2, ?_, by rw [h2]⟩
  rw [h2]
  have h3 : ∃ entry : RoundEntry, entry.roundNumber = lobby.roundNumber ∧
      (revealResults lobby).roundHistory = lobby.roundHistory ++ [entry] := by
    unfold revealResults
    rw [if_neg (by simp [hrev])]
    exact ⟨_, rfl, rfl⟩
  obtain ⟨entry, hen, hRH⟩ := h3
  rw [hRH, List.countP_append, hcount]
  simp [hen]

theorem reveal_idempotent_witness :
    lobbyC7.revealed = false ∧
      lobbyC7.roundHistory.countP (fun e => e.roundNumber == lobbyC7.roundNumber) = 0 ∧
      (revealResults (revealResults lobbyC7) = revealResults lobbyC7 ∧
        (revealResults (revealResults lobbyC7)).roundHistory.countP
          (fun e => e.roundNumber == lobbyC7.roundNumber) = 1 ∧
        (revealResults (revealResults lobbyC7)).players = (revealResults lobbyC7).players) :=
  ⟨by decide, by decide,
    ((reveal_idempotent lobbyC7 (by decide) (by decide)).2.1),
    ((reveal_idempotent lobbyC7 (by decide) (by decide)).2.2.1),
    ((reveal_idempotent lobbyC7 (by decide) (by decide)).2.2.2)⟩

/-! ## Claim C9: disconnect / rejoin / removal -/

theorem find?_updatePlayer_self (id : String) (f : Player → Player)
    (hf : ∀ q, (f q).visibleId = q.visibleId) :
    ∀ players : List Player,
      (updatePlayer id f players).find? (fun p => p.visibleId == id)
        = (players.find? (fun p => p.visibleId == id)).map f := by
  intro players
  induction players with
  | nil => rfl
  | cons p ps ih =>
    by_cases h : (p.visibleId == id) = true
    · rw [updatePlayer, if_pos h]
      simp only [List.find?, hf p, h]
      rfl
    · have hb : (p.visibleId == id) = false := by
        cases hx : (p.visibleId == id) with
        | true => exact absurd hx h
        | false => rfl
      rw [updatePlayer, if_neg h]
      simp only [List.find?, hb]
      exact ih

theorem findPlayer_updatePlayer_self (id : String) (f : Player → Player)
    (hf : ∀ q, (f q).visibleId = q.visibleId) (players : List Player) :
    findPlayer (updatePlayer id f players) id = (findPlayer players id).map f := by
  unfold findPlayer
  rw [find?_updatePlayer_self id f hf players]

theorem findPlayer_erasePlayer_self (players : List Player) (id : String) :
    findPlayer (erasePlayer players id) id = none := by
  induction players with
  | nil => rfl
  | cons p ps ih =>
    by_cases h : (p.visibleId == id) = true
    · have hpred : (!(p.visibleId == id)) = false := by rw [h]; rfl
      rw [erasePlayer, List.filter_cons, hpred]
      exact ih
    · have hb : (p.visibleId == id) = false := by
        cases hb2 : (p.visibleId == id) with
        | true => exact absurd hb2 h
        | false => rfl
      have hpred : (!(p.visibleId == id)) = true := by rw [hb]; rfl
      rw [erasePlayer, List.filter_cons, hpred]
      simp only [if_true]
      unfold findPlayer
      simp only [List.find?, hb]
      exact ih

theorem lookupAssoc_eraseAssoc_self {α : Type} (l : List (String × α)) (k : String) :
    lookupAssoc (eraseAssoc l k) k = none := by
  induction l with
  | nil => rfl
  | cons p ps ih =>
    by_cases h : (p.1 == k) = true
    · have hpred : (!(p.1 == k)) = false := by rw [h]; rfl
      rw [eraseAssoc, List.filter_cons, hpred]
      exact ih
    · have hb : (p.1 == k) = false := by
        cases hb2 : (p.1 == k) with
        | true => exact absurd hb2 h
        | false => rfl
      have hpred : (!(p.1 == k)) = true := by rw [hb]; rfl
      rw [eraseAssoc, List.filter_cons, hpred]
      simp only [if_true]
      unfold lookupAssoc
      simp only [List.find?, hb]
      exact ih

/-- The player map after a disconnect: the disconnect time recorded, (for
a waiting host) the host-transfer timer armed, and the removal timer
armed, all by in-place updates of the one player. -/
theorem disconnectHandler_players (lobby : Lobby) (id : String) (p : Player) (t : Int)
    (hp : findPlayer lobby.players id = some p) :
    (disconnectHandler lobby id t).players =
      updatePlayer id (fun q => { q with removeTimeout := true })
        (if p.isHost && lobby.status == Status.waiting then
          updatePlayer id (fun q => { q with hostTransferTimeout := true })
            (updatePlayer id (fun q => { q with disconnectedAt := some t }) lobby.players)
        else updatePlayer id (fun q => { q with disconnectedAt := some t }) lobby.players) := by
  unfold disconnectHandler
  rw [hp]
  dsimp only
  split
  · split <;> rfl
  · split <;> rfl

theorem disconnectHandler_playerSubmissions (lobby : Lobby) (id : String) (t : Int) :
    (disconnectHandler lobby id t).playerSubmissions = lobby.playerSubmissions := by
  unfold disconnectHandler
  cases findPlayer lobby.players id with
  | none => rfl
  | some p =>
    dsimp only
    split
    · split <;> rfl
    · split <;> rfl

theorem disconnectHandler_playerSockets (lobby : Lobby) (id : String) (p : Player) (t : Int)
    (hp : findPlayer lobby.players id = some p) :
    (disconnectHandler lobby id t).playerSockets = eraseAssoc lobby.playerSockets id := by
  unfold disconnectHandler
  rw [hp]
  dsimp only
  split
  · split <;> rfl
  · split <;> rfl

theorem disconnectHandler_findPlayer (lobby : Lobby) (id : String) (p : Player) (t : Int)
    (hp : findPlayer lobby.players id = some p) :
    findPlayer (disconnectHandler lobby id t).players id
      = some (disconnectedPlayer lobby p t) := by
  rw [disconnectHandler_players lobby id p t hp]
  rw [findPlayer_updatePlayer_self id (fun q => { q with removeTimeout := true })
    (fun q => rfl)]
  by_cases hb : (p.isHost && lobby.status == Status.waiting) = true
  · rw [if_pos hb,
      findPlayer_updatePlayer_self id (fun q => { q with hostTransferTimeout := true })
        (fun q => rfl),
      findPlayer_updatePlayer_self id (fun q => { q with disconnectedAt := some t })
        (fun q => rfl), hp]
    simp [disconnectedPlayer, hb]
  · have hb2 : (p.isHost && lobby.status == Status.waiting) = false := by
      cases hx : (p.isHost && lobby.status == Status.waiting) with
      | true => exact absurd hx hb
      | false => rfl
    rw [if_neg hb,
      findPlayer_updatePlayer_self id (fun q => { q with disconnectedAt := some t })
        (fun q => rfl), hp]
    simp [disconnectedPlayer, hb2]

/-- **C9.** A disconnect never removes the player: it deletes the socket
mapping, records `disconnectedAt` and arms the removal timer, leaving
`totalPoints`, `dice` and the stored submissions unchanged.  A rejoin
with the existing id cancels the pending removal timer and retains that
state, after which a firing of the removal callback is a no-op.  Without
a rejoin, the 2-minute removal timer deletes the player from the player
map. -/
theorem disconnect_rejoin_removal (lobby : Lobby) (id : String) (p : Player) (t : Int)
    (sock : String) (hp : findPlayer lobby.players id = some p) :
    (∃ p1, findPlayer (disconnectHandler lobby id t).players id = some p1 ∧
      p1.totalPoints = p.totalPoints ∧ p1.dice = p.dice ∧
      p1.disconnectedAt = some t ∧ p1.removeTimeout = true) ∧
      (disconnectHandler lobby id t).playerSubmissions = lobby.playerSubmissions ∧
      lookupAssoc (disconnectHandler lobby id t).playerSockets id = none ∧
      (∃ p2, findPlayer (rejoinHandler (disconnectHandler lobby id t) id sock).players id
          = some p2 ∧ p2.totalPoints = p.totalPoints ∧ p2.dice = p.dice ∧
        p2.removeTimeout = false) ∧
      (rejoinHandler (disconnectHandler lobby id t) id sock).playerSubmissions
        = lobby.playerSubmissions ∧
      removalTimerFire (rejoinHandler (disconnectHandler lobby id t) id sock) id
        = rejoinHandler (disconnectHandler lobby id t) id sock ∧
      findPlayer (removalTimerFire (disconnectHandler lobby id t) id).players id = none := by
  have hfd := disconnectHandler_findPlayer lobby id p t hp
  have hsock : lookupAssoc (disconnectHandler lobby id t).playerSockets id = none := by
    rw [disconnectHandler_playerSockets lobby id p t hp]
    exact lookupAssoc_eraseAssoc_self _ _
  have hrj : ∀ L : Lobby, ∀ q : Player, findPlayer L.players id = some q →
      findPlayer (rejoinHandler L id sock).players id
          = some { q with removeTimeout := false, hostTransferTimeout := false, disconnectedAt := none } ∧
        (rejoinHandler L id sock).playerSubmissions = L.playerSubmissions := by
    intro L q hq
    unfold rejoinHandler
    rw [hq]
    dsimp only
    constructor
    · rw [findPlayer_updatePlayer_self id
        (fun r => { r with removeTimeout := false, hostTransferTimeout := false, disconnectedAt := none }) (fun r => rfl), hq]
      rfl
    · rfl
  obtain ⟨hrj1, hrj2⟩ := hrj (disconnectHandler lobby id t) _ hfd
  refine ⟨⟨_, hfd, rfl, rfl, rfl, rfl⟩,
    disconnectHandler_playerSubmissions lobby id t, hsock,
    ⟨_, hrj1, rfl, rfl, rfl⟩,
    by rw [hrj2]; exact disconnectHandler_playerSubmissions lobby id t, ?_, ?_⟩
  · unfold removalTimerFire
    rw [hrj1]
    rfl
  · unfold removalTimerFire
    rw [hfd]
    dsimp only
    have hrm : (disconnectedPlayer lobby p t).removeTimeout = true := rfl
    rw [if_pos hrm, hsock, if_pos Option.isNone_none]
    exact findPlayer_erasePlayer_self _ _

theorem disconnect_rejoin_removal_witness :
    findPlayer lobbyC9.players "A" = some playerC9 ∧
      ((∃ p1, findPlayer (disconnectHandler lobbyC9 "A" 777).players "A" = some p1 ∧
        p1.totalPoints = playerC9.totalPoints ∧ p1.dice = playerC9.dice ∧
        p1.disconnectedAt = some 777 ∧ p1.removeTimeout = true) ∧
      (disconnectHandler lobbyC9 "A" 777).playerSubmissions = lobbyC9.playerSubmissions ∧
      lookupAssoc (disconnectHandler lobbyC9 "A" 777).playerSockets "A" = none ∧
      (∃ p2, findPlayer (rejoinHandler (disconnectHandler lobbyC9 "A" 777) "A" "s2").players
          "A" = some p2 ∧
        p2.totalPoints = playerC9.totalPoints ∧ p2.dice = playerC9.dice ∧
        p2.removeTimeout = false) ∧
      (rejoinHandler (disconnectHandler lobbyC9 "A" 777) "A" "s2").playerSubmissions
        = lobbyC9.playerSubmissions ∧
      removalTimerFire (rejoinHandler (disconnectHandler lobbyC9 "A" 777) "A" "s2") "A"
        = rejoinHandler (disconnectHandler lobbyC9 "A" 777) "A" "s2" ∧
      findPlayer (removalTimerFire (disconnectHandler lobbyC9 "A" 777) "A").players "A"
        = none) :=
  ⟨by decide, disconnect_rejoin_removal lobbyC9 "A" playerC9 777 "s2" (by decide)⟩

theorem eq_of_nodup_map {α β : Type} (f : α → β) :
    ∀ l : List α, (l.map f).Nodup → ∀ a ∈ l, ∀ b ∈ l, f a = f b → a = b := by
  intro l
  induction l with
  | nil => intro _ a ha; exact absurd ha (List.not_mem_nil a)
  | cons c t ih =>
    intro hnd a ha b hb hfab
    rw [List.map_cons, List.nodup_cons] at hnd
    rcases List.mem_cons.mp ha with ha1 | ha2 <;> rcases List.mem_cons.mp hb with hb1 | hb2
    · rw [ha1, hb1]
    · subst ha1
      exact absurd (hfab ▸ List.mem_map_of_mem f hb2) hnd.1
    · subst hb1
      exact absurd (hfab ▸ List.mem_map_of_mem f ha2) hnd.1
    · exact ih hnd.2 a ha2 b hb2 hfab

theorem findPlayer_self_of_nodup :
    ∀ players : List Player, (players.map Player.visibleId).Nodup →
      ∀ p ∈ players, findPlayer players p.visibleId = some p := by
  intro players
  induction players with
  | nil => intro _ p hp; exact absurd hp (List.not_mem_nil p)
  | cons q qs ih =>
    intro hnd p hp
    rw [List.map_cons, List.nodup_cons] at hnd
    rcases List.mem_cons.mp hp with h1 | h2
    · subst h1
      unfold findPlayer
      simp only [List.find?, beq_self_eq_true]
    · have hne : (q.visibleId == p.visibleId) = false := by
        rw [beq_eq_false_iff_ne]
        intro hc
        exact hnd.1 (hc ▸ List.mem_map_of_mem Player.visibleId h2)
      unfold findPlayer
      simp only [List.find?, hne]
      exact ih hnd.2 p h2

theorem findPlayer_updatePlayer_other (id id2 : String) (f : Player → Player)
    (hne : id ≠ id2) (hf : ∀ q, (f q).visibleId = q.visibleId) :
    ∀ players : List Player,
      findPlayer (updatePlayer id f players) id2 = findPlayer players id2 := by
  intro players
  induction players with
  | nil => rfl
  | cons p ps ih =>
    by_cases h : (p.visibleId == id) = true
    · have hpid : p.visibleId = id := by rwa [beq_iff_eq] at h
      have h2 : ((f p).visibleId == id2) = false := by
        rw [hf p, hpid, beq_eq_false_iff_ne]
        exact hne
      have h3 : (p.visibleId == id2) = false := by
        rw [hpid, beq_eq_false_iff_ne]
        exact hne
      rw [updatePlayer, if_pos h]
      unfold findPlayer
      simp only [List.find?, h2, h3]
    · rw [updatePlayer, if_neg h]
      unfold findPlayer
      simp only [List.find?]
      cases hx : (p.visibleId == id2) with
      | true => rfl
      | false => exact ih

theorem updatePlayer_map_ids (id : String) (f : Player → Player)
    (hf : ∀ q, (f q).visibleId = q.visibleId) :
    ∀ players : List Player,
      (updatePlayer id f players).map Player.visibleId = players.map Player.visibleId := by
  intro players
  induction players with
  | nil => rfl
  | cons p ps ih =>
    by_cases h : (p.visibleId == id) = true
    · rw [updatePlayer, if_pos h, List.map_cons, List.map_cons, hf p]
    · rw [updatePlayer, if_neg h, List.map_cons, List.map_cons, ih]

theorem mkNonRanked_visibleId (subs : List (String × Submission)) (p : Player) :
    (mkNonRanked subs p).visibleId = p.visibleId := by
  unfold mkNonRanked
  cases lookupAssoc subs p.visibleId <;> rfl

theorem mkNonRanked_place (subs : List (String × Submission)) (p : Player) :
    (mkNonRanked subs p).place = none ∧ (mkNonRanked subs p).pointsEarned = 0 := by
  unfold mkNonRanked
  cases lookupAssoc subs p.visibleId <;> exact ⟨rfl, rfl⟩

theorem collectValid_ids_sublist (players : List Player) :
    ∀ subs : List (String × Submission),
      ((collectValid players subs).map VEntry.visibleId).Sublist (subs.map Prod.fst) := by
  intro subs
  induction subs with
  | nil => exact List.Sublist.refl _
  | cons pr rest ih =>
    unfold collectValid at ih ⊢
    cases hfp : findPlayer players pr.1 with
    | none =>
      rw [List.filterMap_cons]
      simp only [hfp, List.map_cons]
      exact List.Sublist.cons pr.1 ih
    | some player =>
      by_cases hv : pr.2.isValid = true
      · rw [List.filterMap_cons]
        simp only [hfp, hv, if_true, List.map_cons]
        exact List.Sublist.cons₂ pr.1 ih
      · have hv2 : pr.2.isValid = false := by
          cases hx : pr.2.isValid with
          | true => exact absurd hx hv
          | false => rfl
        rw [List.filterMap_cons]
        simp only [hfp, hv2, Bool.false_eq_true, if_false, List.map_cons]
        exact List.Sublist.cons pr.1 ih

theorem rankLoop_spec :
    ∀ (l pre : List VEntry) (players : List Player) (lastScore : Option Int) (curPlace : Nat),
      (pre ++ l).Pairwise entryGE →
      ((pre = [] ∧ lastScore = none) ∨
        ∃ x ∈ pre, lastScore = some x.score ∧ curPlace = placeIn (pre ++ l) x ∧
          ∀ a ∈ pre, x.score ≤ a.score) →
      rankLoop players pre.length lastScore curPlace l =
        (l.map (rankedResult (pre ++ l)),
          l.foldl (fun ps e => updatePlayer e.visibleId (addPts (pre ++ l) e) ps) players) := by
  intro l
  induction l with
  | nil =>
    intro pre players lastScore curPlace _ _
    rfl
  | cons e rest ih =>
    intro pre players lastScore curPlace hsort hinv
    have hpa := List.pairwise_append.mp hsort
    have hrest0 : rest.countP (fun v => decide (e.score < v.score)) = 0 := by
      rw [List.countP_eq_zero]
      intro r hr
      have h1 : entryGE e r := (List.pairwise_cons.mp hpa.2.1).1 r hr
      simp only [decide_eq_true_eq]
      exact not_lt.mpr h1
    have hconsz : (e :: rest).countP (fun v => decide (e.score < v.score)) = 0 := by
      rw [List.countP_cons_of_neg _ _ (by simp), hrest0]
    have hplace : (if lastScore == some e.score then curPlace else pre.length + 1)
        = placeIn (pre ++ e :: rest) e := by
      by_cases hls : (lastScore == some e.score) = true
      · rw [if_pos hls]
        have hlse : lastScore = some e.score := by rwa [beq_iff_eq] at hls
        rcases hinv with ⟨_, hnone⟩ | ⟨x, hx, hxs, hxp, _⟩
        · rw [hnone] at hlse
          exact absurd hlse (by simp)
        · have hxe : x.score = e.score := by
            rw [hxs] at hlse
            exact Option.some.inj hlse
          rw [hxp]
          unfold placeIn
          rw [hxe]
      · rw [if_neg hls]
        have hpre : pre.countP (fun v => decide (e.score < v.score)) = pre.length := by
          rw [List.countP_eq_length]
          intro a ha
          simp only [decide_eq_true_eq]
          rcases hinv with ⟨hpn, _⟩ | ⟨x, hx, hxs, _, hxmin⟩
          · rw [hpn] at ha
            exact absurd ha (List.not_mem_nil a)
          · have hxe : x.score ≠ e.score := by
              intro hc
              exact hls (by rw [hxs, hc, beq_iff_eq])
            have h1 : e.score ≤ x.score := hpa.2.2 x hx e (List.mem_cons_self e rest)
            have h2 : e.score < x.score := lt_of_le_of_ne h1 (fun hc => hxe hc.symm)
            exact lt_of_lt_of_le h2 (hxmin a ha)
        unfold placeIn
        rw [List.countP_append, hconsz, hpre]
        omega
    have hfull : (pre ++ [e]) ++ rest = pre ++ e :: rest := by simp
    have hsort2 : ((pre ++ [e]) ++ rest).Pairwise entryGE := by
      rw [hfull]
      exact hsort
    have hinv2 : ((pre ++ [e] = []) ∧ (some e.score : Option Int) = none) ∨
        ∃ x ∈ pre ++ [e], (some e.score : Option Int) = some x.score ∧
          placeIn (pre ++ e :: rest) e = placeIn ((pre ++ [e]) ++ rest) x ∧
          ∀ a ∈ pre ++ [e], x.score ≤ a.score := by
      refine Or.inr ⟨e, List.mem_append_right pre (List.mem_singleton_self e), rfl, ?_, ?_⟩
      · rw [hfull]
      · intro a ha
        rcases List.mem_append.mp ha with h1 | h2
        · exact hpa.2.2 a h1 e (List.mem_cons_self e rest)
        · rw [List.mem_singleton.mp h2]
    have hIH := ih (pre ++ [e])
      (updatePlayer e.visibleId (addPts (pre ++ e :: rest) e) players)
      (some e.score) (placeIn (pre ++ e :: rest) e) hsort2 hinv2
    rw [hfull] at hIH
    have hlen : (pre ++ [e]).length = pre.length + 1 := by simp
    rw [hlen] at hIH
    have haddPts : addPts (pre ++ e :: rest) e =
        (fun p => { p with totalPoints := p.totalPoints
          + placementPoints (placeIn (pre ++ e :: rest) e) }) := rfl
    rw [haddPts] at hIH
    simp only [rankLoop]
    rw [hplace, hIH]
    simp only [List.map_cons, List.foldl_cons]
    rfl

theorem findPlayer_foldl_update_none (g : VEntry → Player → Player)
    (hg : ∀ e q, (g e q).visibleId = q.visibleId) (id : String) :
    ∀ (l : List VEntry) (ps : List Player), (∀ e ∈ l, e.visibleId ≠ id) →
      findPlayer (l.foldl (fun ps e => updatePlayer e.visibleId (g e) ps) ps) id
        = findPlayer ps id := by
  intro l
  induction l with
  | nil => intro ps _; rfl
  | cons e rest ih =>
    intro ps hne
    rw [List.foldl_cons]
    rw [ih _ (fun e2 he2 => hne e2 (List.mem_cons_of_mem e he2))]
    exact findPlayer_updatePlayer_other e.visibleId id (g e)
      (hne e (List.mem_cons_self e rest)) (hg e) ps

theorem findPlayer_foldl_update_once (g : VEntry → Player → Player)
    (hg : ∀ e q, (g e q).visibleId = q.visibleId) (id : String)
    (l1 l2 : List VEntry) (e0 : VEntry) (ps : List Player)
    (he0 : e0.visibleId = id)
    (h1 : ∀ e ∈ l1, e.visibleId ≠ id) (h2 : ∀ e ∈ l2, e.visibleId ≠ id) :
    findPlayer ((l1 ++ e0 :: l2).foldl (fun ps e => updatePlayer e.visibleId (g e) ps) ps) id
      = (findPlayer ps id).map (g e0) := by
  rw [List.foldl_append, List.foldl_cons]
  rw [findPlayer_foldl_update_none g hg id l2 _ h2]
  rw [he0]
  rw [findPlayer_updatePlayer_self id (g e0) (fun q => hg e0 q)]
  rw [findPlayer_foldl_update_none g hg id l1 ps h1]

theorem addNonRanked_extends (subs : List (String × Submission)) :
    ∀ (ps : List Player) (acc : List RoundResult),
      ∃ extra, addNonRanked subs ps acc = acc ++ extra := by
  intro ps
  induction ps with
  | nil => intro acc; exact ⟨[], by simp [addNonRanked]⟩
  | cons p0 qs ih =>
    intro acc
    unfold addNonRanked at ih ⊢
    simp only [List.foldl_cons]
    by_cases hc : acc.any (fun r => r.visibleId == p0.visibleId) = true
    · rw [if_pos hc]
      exact ih acc
    · rw [if_neg hc]
      obtain ⟨extra, hx⟩ := ih (acc ++ [mkNonRanked subs p0])
      exact ⟨[mkNonRanked subs p0] ++ extra, by rw [hx, List.append_assoc]⟩

theorem addNonRanked_mem (subs : List (String × Submission)) :
    ∀ (ps : List Player) (acc : List RoundResult) (r : RoundResult),
      r ∈ addNonRanked subs ps acc → r ∈ acc ∨ ∃ q ∈ ps, r = mkNonRanked subs q := by
  intro ps
  induction ps with
  | nil => intro acc r hr; exact Or.inl (by simpa [addNonRanked] using hr)
  | cons p0 qs ih =>
    intro acc r hr
    unfold addNonRanked at hr
    simp only [List.foldl_cons] at hr
    by_cases hc : acc.any (fun r2 => r2.visibleId == p0.visibleId) = true
    · rw [if_pos hc] at hr
      rcases ih acc r hr with h | ⟨q2, hq2, hr2⟩
      · exact Or.inl h
      · exact Or.inr ⟨q2, List.mem_cons_of_mem p0 hq2, hr2⟩
    · rw [if_neg hc] at hr
      rcases ih (acc ++ [mkNonRanked subs p0]) r hr with h | ⟨q2, hq2, hr2⟩
      · rcases List.mem_append.mp h with ha | ha
        · exact Or.inl ha
        · exact Or.inr ⟨p0, List.mem_cons_self p0 qs, List.mem_singleton.mp ha⟩
      · exact Or.inr ⟨q2, List.mem_cons_of_mem p0 hq2, hr2⟩

theorem addNonRanked_any_mono (subs : List (String × Submission)) (id : String)
    (ps : List Player) (acc : List RoundResult)
    (h : acc.any (fun r => r.visibleId == id) = true) :
    (addNonRanked subs ps acc).any (fun r => r.visibleId == id) = true := by
  obtain ⟨extra, hx⟩ := addNonRanked_extends subs ps acc
  rw [hx, List.any_append, h]
  rfl

theorem addNonRanked_any_of_mem (subs : List (String × Submission)) :
    ∀ (ps : List Player) (acc : List RoundResult) (q : Player), q ∈ ps →
      (addNonRanked subs ps acc).any (fun r => r.visibleId == q.visibleId) = true := by
  intro ps
  induction ps with
  | nil => intro acc q hq; exact absurd hq (List.not_mem_nil q)
  | cons p0 qs ih =>
    intro acc q hq
    unfold addNonRanked
    simp only [List.foldl_cons]
    rcases List.mem_cons.mp hq with h1 | h2
    · subst h1
      by_cases hc : acc.any (fun r => r.visibleId == q.visibleId) = true
      · rw [if_pos hc]
        exact addNonRanked_any_mono subs q.visibleId qs acc hc
      · rw [if_neg hc]
        apply addNonRanked_any_mono
        rw [List.any_append]
        simp [mkNonRanked_visibleId]
    · by_cases hc : acc.any (fun r => r.visibleId == p0.visibleId) = true
      · rw [if_pos hc]
        exact ih acc q h2
      · rw [if_neg hc]
        exact ih _ q h2

theorem addNonRanked_countP_of_any (subs : List (String × Submission)) (id : String) :
    ∀ (ps : List Player) (acc : List RoundResult),
      acc.any (fun r => r.visibleId == id) = true →
      (addNonRanked subs ps acc).countP (fun r => r.visibleId == id)
        = acc.countP (fun r => r.visibleId == id) := by
  intro ps
  induction ps with
  | nil => intro acc _; rfl
  | cons p0 qs ih =>
    intro acc h
    unfold addNonRanked
    simp only [List.foldl_cons]
    by_cases hc : acc.any (fun r => r.visibleId == p0.visibleId) = true
    · rw [if_pos hc]
      exact ih acc h
    · rw [if_neg hc]
      have hne : ((mkNonRanked subs p0).visibleId == id) = false := by
        rw [mkNonRanked_visibleId, beq_eq_false_iff_ne]
        intro hpe
        rw [hpe] at hc
        exact hc h
      have hcount : (acc ++ [mkNonRanked subs p0]).countP (fun r => r.visibleId == id)
          = acc.countP (fun r => r.visibleId == id) := by
        rw [List.countP_append]
        simp [List.countP_cons, hne]
      have hany : (acc ++ [mkNonRanked subs p0]).any (fun r => r.visibleId == id) = true := by
        rw [List.any_append, h]
        rfl
      exact (ih (acc ++ [mkNonRanked subs p0]) hany).trans hcount

theorem addNonRanked_countP_of_nodup (subs : List (String × Submission)) (id : String) :
    ∀ (ps : List Player) (acc : List RoundResult),
      (ps.map Player.visibleId).Nodup →
      acc.any (fun r => r.visibleId == id) = false →
      (∃ q ∈ ps, q.visibleId = id) →
      (addNonRanked subs ps acc).countP (fun r => r.visibleId == id) = 1 := by
  intro ps
  induction ps with
  | nil =>
    intro acc _ _ hex
    obtain ⟨q, hq, _⟩ := hex
    exact absurd hq (List.not_mem_nil q)
  | cons p0 qs ih =>
    intro acc hnd hacc hex
    obtain ⟨q, hq, hqid⟩ := hex
    rw [List.map_cons, List.nodup_cons] at hnd
    unfold addNonRanked
    simp only [List.foldl_cons]
    by_cases hp0 : p0.visibleId = id
    · have hc : acc.any (fun r => r.visibleId == p0.visibleId) = false := by
        rw [hp0]
        exact hacc
      rw [if_neg (by rw [hc]; exact Bool.false_ne_true)]
      have hacc0 : acc.countP (fun r => r.visibleId == id) = 0 := by
        rw [List.countP_eq_zero]
        intro r hr hcon
        have h3 : acc.any (fun r => r.visibleId == id) = true :=
          List.any_eq_true.mpr ⟨r, hr, hcon⟩
        rw [h3] at hacc
        exact Bool.noConfusion hacc
      have hanynew : (acc ++ [mkNonRanked subs p0]).any (fun r => r.visibleId == id) = true := by
        rw [List.any_append]
        simp [mkNonRanked_visibleId, hp0]
      have hcnew : (acc ++ [mkNonRanked subs p0]).countP (fun r => r.visibleId == id) = 1 := by
        rw [List.countP_append, hacc0]
        simp [List.countP_cons, mkNonRanked_visibleId, hp0]
      exact (addNonRanked_countP_of_any subs id qs _ hanynew).trans hcnew
    · have hq2 : q ∈ qs := by
        rcases List.mem_cons.mp hq with h1 | h2
        · exact absurd (show p0.visibleId = id by rw [← h1]; exact hqid) hp0
        · exact h2
      by_cases hc : acc.any (fun r => r.visibleId == p0.visibleId) = true
      · rw [if_pos hc]
        exact ih acc hnd.2 hacc ⟨q, hq2, hqid⟩
      · rw [if_neg hc]
        have haccnew : (acc ++ [mkNonRanked subs p0]).any (fun r => r.visibleId == id)
            = false := by
          rw [List.any_append, hacc]
          simp [mkNonRanked_visibleId]
          intro hcon
          exact absurd hcon hp0
        exact ih _ hnd.2 haccnew ⟨q, hq2, hqid⟩

theorem calculatePlacements_eq (players : List Player) (subs : List (String × Submission)) :
    calculatePlacements players subs =
      (addNonRanked subs
        ((List.insertionSort entryGE (collectValid players subs)).foldl
          (fun ps e => updatePlayer e.visibleId
            (addPts (List.insertionSort entryGE (collectValid players subs)) e) ps) players)
        ((List.insertionSort entryGE (collectValid players subs)).map
          (rankedResult (List.insertionSort entryGE (collectValid players subs)))),
       (List.insertionSort entryGE (collectValid players subs)).foldl
          (fun ps e => updatePlayer e.visibleId
            (addPts (List.insertionSort entryGE (collectValid players subs)) e) ps) players) := by
  have hs : (List.insertionSort entryGE (collectValid players subs)).Pairwise entryGE :=
    List.sorted_insertionSort entryGE (collectValid players subs)
  have h := rankLoop_spec (List.insertionSort entryGE (collectValid players subs)) [] players
    none 0 (by rw [List.nil_append]; exact hs) (Or.inl ⟨rfl, rfl⟩)
  simp only [List.nil_append, List.length_nil] at h
  simp only [calculatePlacements]
  rw [h]

theorem foldl_update_map_ids (g : VEntry → Player → Player)
    (hg : ∀ e q, (g e q).visibleId = q.visibleId) :
    ∀ (l : List VEntry) (ps : List Player),
      ((l.foldl (fun ps e => updatePlayer e.visibleId (g e) ps) ps).map Player.visibleId)
        = ps.map Player.visibleId := by
  intro l
  induction l with
  | nil => intro ps; rfl
  | cons e rest ih =>
    intro ps
    rw [List.foldl_cons, ih]
    exact updatePlayer_map_ids e.visibleId (g e) (hg e) ps

theorem findPlayer_isSome_of_mem_ids (players : List Player) (id : String)
    (h : ∃ p ∈ players, p.visibleId = id) : (findPlayer players id).isSome = true := by
  obtain ⟨p, hp, hid⟩ := h
  unfold findPlayer
  rw [List.find?_isSome]
  exact ⟨p, hp, by rw [hid, beq_self_eq_true]⟩

theorem collectValid_mem_cons (players : List Player) (pr : String × Submission)
    (rest : List (String × Submission)) (e : VEntry) (he : e ∈ collectValid players rest) :
    e ∈ collectValid players (pr :: rest) := by
  unfold collectValid at he ⊢
  rw [List.filterMap_cons]
  cases hfp : findPlayer players pr.1 with
  | none =>
    simp only [hfp]
    exact he
  | some pl =>
    simp only [hfp]
    by_cases hv : pr.2.isValid = true
    · rw [if_pos hv]
      exact List.mem_cons_of_mem _ he
    · rw [if_neg hv]
      exact he

theorem collectValid_mem_of_lookup (players : List Player) :
    ∀ (subs : List (String × Submission)) (id : String) (s : Submission),
      lookupAssoc subs id = some s → s.isValid = true →
      (findPlayer players id).isSome = true →
      ∃ e ∈ collectValid players subs, e.visibleId = id := by
  intro subs
  induction subs with
  | nil =>
    intro id s h
    exact absurd h (by simp [lookupAssoc])
  | cons pr rest ih =>
    intro id s hl hv hf
    unfold lookupAssoc at hl
    cases hx : (pr.1 == id) with
    | true =>
      simp only [List.find?, hx, Option.map_some] at hl
      have hpr : pr.2 = s := by
        cases hl
        rfl
      have hid : pr.1 = id := by rwa [beq_iff_eq] at hx
      unfold collectValid
      rw [List.filterMap_cons]
      cases hfp : findPlayer players pr.1 with
      | none =>
        rw [hid] at hfp
        rw [hfp] at hf
        exact Bool.noConfusion hf
      | some pl =>
        simp only [hfp]
        rw [hpr, hv, if_pos rfl]
        exact ⟨⟨pr.1, pl.pname, s.word, s.score, s.breakdown⟩,
          List.mem_cons_self _ _, hid⟩
    | false =>
      simp only [List.find?, hx] at hl
      obtain ⟨e, he, hei⟩ := ih id s hl hv hf
      exact ⟨e, collectValid_mem_cons players pr rest e he, hei⟩

theorem collectValid_id_mem (players : List Player) :
    ∀ subs : List (String × Submission), ∀ e ∈ collectValid players subs,
      ∃ p ∈ players, p.visibleId = e.visibleId := by
  intro subs
  induction subs with
  | nil =>
    intro e he
    exact absurd he (by simp [collectValid])
  | cons pr rest ih =>
    intro e he
    unfold collectValid at he
    rw [List.filterMap_cons] at he
    cases hfp : findPlayer players pr.1 with
    | none =>
      rw [hfp] at he
      exact ih e he
    | some pl =>
      rw [hfp] at he
      simp only [] at he
      by_cases hv : pr.2.isValid = true
      · rw [if_pos hv] at he
        rcases List.mem_cons.mp he with h1 | h2
        · have hfp2 : players.find? (fun p => p.visibleId == pr.1) = some pl := hfp
          refine ⟨pl, List.mem_of_find?_eq_some hfp2, ?_⟩
          have hplid := List.find?_some hfp2
          rw [h1]
          rwa [beq_iff_eq] at hplid
        · exact ih e h2
      · rw [if_neg hv] at he
        exact ih e he

theorem countP_eq_one_of_nodup_ids :
    ∀ l : List VEntry, (l.map VEntry.visibleId).Nodup → ∀ e ∈ l,
      l.countP (fun v => v.visibleId == e.visibleId) = 1 := by
  intro l
  induction l with
  | nil => intro _ e he; exact absurd he (List.not_mem_nil e)
  | cons c t ih =>
    intro hnd e he
    rw [List.map_cons, List.nodup_cons] at hnd
    rcases List.mem_cons.mp he with h1 | h2
    · subst h1
      rw [List.countP_cons_of_pos _ _ (by rw [beq_self_eq_true])]
      have ht0 : t.countP (fun v => v.visibleId == e.visibleId) = 0 := by
        rw [List.countP_eq_zero]
        intro v hv hcon
        rw [beq_iff_eq] at hcon
        exact hnd.1 (hcon ▸ List.mem_map_of_mem VEntry.visibleId hv)
      rw [ht0]
    · have hcne : (c.visibleId == e.visibleId) = false := by
        rw [beq_eq_false_iff_ne]
        intro hcon
        exact hnd.1 (hcon ▸ List.mem_map_of_mem VEntry.visibleId h2)
      rw [List.countP_cons_of_neg _ _ (by rw [hcne]; exact Bool.false_ne_true)]
      exact ih hnd.2 e h2

/-- **C4.** `calculatePlacements` implements competition ranking over the
valid submissions of the round: every valid entry is reported with place
1 + (number of strictly higher-scoring valid entries) — so tied scores
share a place and the next distinct score continues at the previous
index + 1 — together with the placement points of that place
(3 / 2 / 1 for places 1 / 2 / 3, 0 otherwise); each ranked player's
`totalPoints` is incremented by exactly their earned points exactly once;
and every player without a valid submission keeps their `totalPoints`
unchanged and is reported with a `null` place, zero points earned, and
the `noSubmission` or `isInvalid` flag. -/
theorem calculatePlacements_spec (players : List Player) (subs : List (String × Submission))
    (hpn : (players.map Player.visibleId).Nodup)
    (hsn : (subs.map Prod.fst).Nodup) :
    (placementPoints 1 = 3 ∧ placementPoints 2 = 2 ∧ placementPoints 3 = 1 ∧
      placementPoints 0 = 0 ∧ ∀ n, 4 ≤ n → placementPoints n = 0) ∧
    (∀ e ∈ collectValid players subs,
      rankedResult (collectValid players subs) e ∈ (calculatePlacements players subs).1 ∧
      (rankedResult (collectValid players subs) e).place
        = some (1 + List.countP (fun v => decide (e.score < v.score))
            (collectValid players subs)) ∧
      (rankedResult (collectValid players subs) e).pointsEarned
        = placementPoints (1 + List.countP (fun v => decide (e.score < v.score))
            (collectValid players subs))) ∧
    (∀ p ∈ players, ∀ e ∈ collectValid players subs, e.visibleId = p.visibleId →
      findPlayer (calculatePlacements players subs).2 p.visibleId
        = some { p with totalPoints := p.totalPoints
            + (rankedResult (collectValid players subs) e).pointsEarned }) ∧
    (∀ p ∈ players, (∀ e ∈ collectValid players subs, e.visibleId ≠ p.visibleId) →
      findPlayer (calculatePlacements players subs).2 p.visibleId = some p ∧
      ∃ r ∈ (calculatePlacements players subs).1, r.visibleId = p.visibleId ∧ r.place = none ∧
        r.pointsEarned = 0 ∧ (r.noSubmission = true ∨ r.isInvalid = true)) := by
  have hcp := calculatePlacements_eq players subs
  have hres := congrArg Prod.fst hcp
  have hps2 := congrArg Prod.snd hcp
  have hperm : List.Perm (List.insertionSort entryGE (collectValid players subs))
      (collectValid players subs) :=
    List.perm_insertionSort entryGE (collectValid players subs)
  have hvnd : ((collectValid players subs).map VEntry.visibleId).Nodup :=
    List.Nodup.sublist (collectValid_ids_sublist players subs) hsn
  have hsnd : ((List.insertionSort entryGE (collectValid players subs)).map
      VEntry.visibleId).Nodup := ((hperm.map VEntry.visibleId).nodup_iff).mpr hvnd
  have hplaceEq : ∀ e : VEntry,
      placeIn (List.insertionSort entryGE (collectValid players subs)) e
        = placeIn (collectValid players subs) e := by
    intro e
    unfold placeIn
    rw [hperm.countP_eq]
  have hrrEq : ∀ e : VEntry,
      rankedResult (List.insertionSort entryGE (collectValid players subs)) e
        = rankedResult (collectValid players subs) e := by
    intro e
    unfold rankedResult
    rw [hplaceEq]
  have hpids := foldl_update_map_ids
    (addPts (List.insertionSort entryGE (collectValid players subs))) (fun e q => rfl)
    (List.insertionSort entryGE (collectValid players subs)) players
  refine ⟨⟨rfl, rfl, rfl, rfl, ?_⟩, ?_, ?_, ?_⟩
  · intro n hn
    obtain ⟨m, rfl⟩ : ∃ m, n = m + 4 := ⟨n - 4, by omega⟩
    rfl
  · intro e he
    refine ⟨?_, rfl, rfl⟩
    rw [hres]
    obtain ⟨extra, hx⟩ := addNonRanked_extends subs
      ((List.insertionSort entryGE (collectValid players subs)).foldl
        (fun ps e => updatePlayer e.visibleId
          (addPts (List.insertionSort entryGE (collectValid players subs)) e) ps) players)
      ((List.insertionSort entryGE (collectValid players subs)).map
        (rankedResult (List.insertionSort entryGE (collectValid players subs))))
    rw [hx]
    apply List.mem_append_left
    rw [← hrrEq e]
    exact List.mem_map_of_mem _ (hperm.mem_iff.mpr he)
  · intro p hp e he hei
    rw [hps2]
    have hes : e ∈ List.insertionSort entryGE (collectValid players subs) :=
      hperm.mem_iff.mpr he
    obtain ⟨l1, l2, hdec⟩ := List.append_of_mem hes
    have hnd2 := hsnd
    rw [hdec, List.map_append, List.map_cons, List.nodup_append] at hnd2
    have hid1 : ∀ a ∈ l1, a.visibleId ≠ p.visibleId := by
      intro a ha hcon
      exact hnd2.2.2 (List.mem_map_of_mem VEntry.visibleId ha)
        (by rw [hcon, ← hei]; exact List.mem_cons_self _ _)
    have hid2 : ∀ a ∈ l2, a.visibleId ≠ p.visibleId := by
      intro a ha hcon
      have hmm : e.visibleId ∈ l2.map VEntry.visibleId := by
        rw [hei, ← hcon]
        exact List.mem_map_of_mem VEntry.visibleId ha
      exact (List.nodup_cons.mp hnd2.2.1).1 hmm
    rw [hdec]
    rw [findPlayer_foldl_update_once (addPts (l1 ++ e :: l2)) (fun e2 q => rfl)
      p.visibleId l1 l2 e players hei hid1 hid2]
    rw [findPlayer_self_of_nodup players hpn p hp]
    have hplace2 : placeIn (l1 ++ e :: l2) e = placeIn (collectValid players subs) e := by
      rw [← hdec]
      exact hplaceEq e
    show some (addPts (l1 ++ e :: l2) e p) = _
    unfold addPts
    rw [hplace2]
    rfl
  · intro p hp hnov
    have hnos : ∀ e2 ∈ List.insertionSort entryGE (collectValid players subs),
        e2.visibleId ≠ p.visibleId := fun e2 he2 => hnov e2 (hperm.mem_iff.mp he2)
    constructor
    · rw [hps2]
      exact (findPlayer_foldl_update_none
        (addPts (List.insertionSort entryGE (collectValid players subs))) (fun e q => rfl)
        p.visibleId (List.insertionSort entryGE (collectValid players subs)) players
        hnos).trans (findPlayer_self_of_nodup players hpn p hp)
    · have hmemid : p.visibleId ∈
          ((List.insertionSort entryGE (collectValid players subs)).foldl
            (fun ps e => updatePlayer e.visibleId
              (addPts (List.insertionSort entryGE (collectValid players subs)) e) ps)
            players).map Player.visibleId := by
        rw [hpids]
        exact List.mem_map_of_mem Player.visibleId hp
      obtain ⟨q, hq, hqid⟩ := List.mem_map.mp hmemid
      have hany := addNonRanked_any_of_mem subs _
        ((List.insertionSort entryGE (collectValid players subs)).map
          (rankedResult (List.insertionSort entryGE (collectValid players subs)))) q hq
      rw [hqid] at hany
      obtain ⟨r, hr, hrid⟩ := List.any_eq_true.mp hany
      have hrid2 : r.visibleId = p.visibleId := by rwa [beq_iff_eq] at hrid
      rcases addNonRanked_mem subs _ _ r hr with hrk | ⟨q2, hq2, hreq⟩
      · exfalso
        obtain ⟨e2, he2, hre⟩ := List.mem_map.mp hrk
        rw [← hre] at hrid2
        exact hnos e2 he2 hrid2
      · subst hreq
        have hq2id : q2.visibleId = p.visibleId :=
          (mkNonRanked_visibleId subs q2).symm.trans hrid2
        refine ⟨mkNonRanked subs q2, by rw [hres]; exact hr, hrid2,
          (mkNonRanked_place subs q2).1, (mkNonRanked_place subs q2).2, ?_⟩
        unfold mkNonRanked
        cases hlk : lookupAssoc subs q2.visibleId with
        | none => exact Or.inl rfl
        | some s2 =>
          cases hsv : s2.isValid with
          | true =>
            exfalso
            have hfs : (findPlayer players q2.visibleId).isSome = true := by
              rw [hq2id, findPlayer_self_of_nodup players hpn p hp]
              rfl
            obtain ⟨e2, he2, hei2⟩ :=
              collectValid_mem_of_lookup players subs q2.visibleId s2 hlk hsv hfs
            exact hnov e2 he2 (hei2.trans hq2id)
          | false =>
            refine Or.inr ?_
            show (!s2.isValid) = true
            rw [hsv]
            rfl

theorem calculatePlacements_spec_witness :
    (playersC4.map Player.visibleId).Nodup ∧ (subsC4.map Prod.fst).Nodup ∧
    ((placementPoints 1 = 3 ∧ placementPoints 2 = 2 ∧ placementPoints 3 = 1 ∧
      placementPoints 0 = 0 ∧ ∀ n, 4 ≤ n → placementPoints n = 0) ∧
    (∀ e ∈ collectValid playersC4 subsC4,
      rankedResult (collectValid playersC4 subsC4) e ∈ (calculatePlacements playersC4 subsC4).1 ∧
      (rankedResult (collectValid playersC4 subsC4) e).place
        = some (1 + List.countP (fun v => decide (e.score < v.score))
            (collectValid playersC4 subsC4)) ∧
      (rankedResult (collectValid playersC4 subsC4) e).pointsEarned
        = placementPoints (1 + List.countP (fun v => decide (e.score < v.score))
            (collectValid playersC4 subsC4))) ∧
    (∀ p ∈ playersC4, ∀ e ∈ collectValid playersC4 subsC4, e.visibleId = p.visibleId →
      findPlayer (calculatePlacements playersC4 subsC4).2 p.visibleId
        = some { p with totalPoints := p.totalPoints
            + (rankedResult (collectValid playersC4 subsC4) e).pointsEarned }) ∧
    (∀ p ∈ playersC4, (∀ e ∈ collectValid playersC4 subsC4, e.visibleId ≠ p.visibleId) →
      findPlayer (calculatePlacements playersC4 subsC4).2 p.visibleId = some p ∧
      ∃ r ∈ (calculatePlacements playersC4 subsC4).1, r.visibleId = p.visibleId ∧
        r.place = none ∧ r.pointsEarned = 0 ∧
        (r.noSubmission = true ∨ r.isInvalid = true))) :=
  ⟨by decide, by decide, calculatePlacements_spec playersC4 subsC4 (by decide) (by decide)⟩

theorem collectValid_filter (players : List Player) :
    ∀ subs : List (String × Submission),
      collectValid players (subs.filter (fun pr => (findPlayer players pr.1).isSome))
        = collectValid players subs := by
  intro subs
  induction subs with
  | nil => rfl
  | cons pr rest ih =>
    unfold collectValid at ih ⊢
    rw [List.filter_cons]
    cases hfp : findPlayer players pr.1 with
    | none =>
      simp only [Option.isSome_none, Bool.false_eq_true, if_false]
      rw [List.filterMap_cons]
      simp only [hfp]
      exact ih
    | some pl =>
      simp only [Option.isSome_some, if_true]
      rw [List.filterMap_cons, List.filterMap_cons]
      simp only [hfp]
      by_cases hv : pr.2.isValid = true
      · simp only [hv, if_true]
        rw [ih]
      · have hv2 : pr.2.isValid = false := by
          cases hx : pr.2.isValid with
          | true => exact absurd hx hv
          | false => rfl
        simp only [hv2, Bool.false_eq_true, if_false]
        exact ih

theorem lookupAssoc_filter_of_keep {α : Type} (keep : String × α → Bool) (k : String) :
    ∀ l : List (String × α), (∀ pr ∈ l, pr.1 = k → keep pr = true) →
      lookupAssoc (l.filter keep) k = lookupAssoc l k := by
  intro l
  induction l with
  | nil => intro _; rfl
  | cons pr rest ih =>
    intro hk
    rw [List.filter_cons]
    cases hkp : keep pr with
    | true =>
      simp only [if_true]
      unfold lookupAssoc
      simp only [List.find?]
      cases hx : (pr.1 == k) with
      | true => rfl
      | false => exact ih (fun pr2 h2 => hk pr2 (List.mem_cons_of_mem pr h2))
    | false =>
      simp only [Bool.false_eq_true, if_false]
      have hne : (pr.1 == k) = false := by
        rw [beq_eq_false_iff_ne]
        intro hc
        rw [hk pr (List.mem_cons_self pr rest) hc] at hkp
        exact Bool.noConfusion hkp
      rw [ih (fun pr2 h2 => hk pr2 (List.mem_cons_of_mem pr h2))]
      unfold lookupAssoc
      simp only [List.find?, hne]

theorem mkNonRanked_filter (subs : List (String × Submission))
    (keep : String × Submission → Bool) (q : Player)
    (hk : ∀ pr ∈ subs, pr.1 = q.visibleId → keep pr = true) :
    mkNonRanked (subs.filter keep) q = mkNonRanked subs q := by
  unfold mkNonRanked
  rw [lookupAssoc_filter_of_keep keep q.visibleId subs hk]

theorem addNonRanked_congr (subs subs2 : List (String × Submission)) :
    ∀ (ps : List Player) (acc : List RoundResult),
      (∀ q ∈ ps, mkNonRanked subs2 q = mkNonRanked subs q) →
      addNonRanked subs2 ps acc = addNonRanked subs ps acc := by
  intro ps
  induction ps with
  | nil => intro acc _; rfl
  | cons p0 qs ih =>
    intro acc hk
    unfold addNonRanked
    simp only [List.foldl_cons]
    rw [hk p0 (List.mem_cons_self p0 qs)]
    exact ih _ (fun q hq => hk q (List.mem_cons_of_mem p0 hq))

theorem calculatePlacements_orphans (players : List Player)
    (subs : List (String × Submission)) :
    calculatePlacements players (subs.filter (fun pr => (findPlayer players pr.1).isSome))
      = calculatePlacements players subs := by
  have hcv := collectValid_filter players subs
  rw [calculatePlacements_eq players subs,
    calculatePlacements_eq players (subs.filter (fun pr => (findPlayer players pr.1).isSome))]
  rw [hcv]
  have hpids := foldl_update_map_ids
    (addPts (List.insertionSort entryGE (collectValid players subs))) (fun e q => rfl)
    (List.insertionSort entryGE (collectValid players subs)) players
  have hcong := addNonRanked_congr subs
    (subs.filter (fun pr => (findPlayer players pr.1).isSome))
    ((List.insertionSort entryGE (collectValid players subs)).foldl
      (fun ps e => updatePlayer e.visibleId
        (addPts (List.insertionSort entryGE (collectValid players subs)) e) ps) players)
    ((List.insertionSort entryGE (collectValid players subs)).map
      (rankedResult (List.insertionSort entryGE (collectValid players subs))))
    (by
      intro q hq
      apply mkNonRanked_filter
      intro pr hpr hpk
      rw [hpk]
      apply findPlayer_isSome_of_mem_ids
      have hmem : q.visibleId ∈ players.map Player.visibleId := by
        rw [← hpids]
        exact List.mem_map_of_mem Player.visibleId hq
      obtain ⟨pl, hpl, hplid⟩ := List.mem_map.mp hmem
      exact ⟨pl, hpl, hplid⟩)
  rw [hcong]

/-- **C10.** The results list of `calculatePlacements` has exactly one
entry per player still present in the player map, every entry belongs to
such a player, and submissions whose player id is no longer in the map
are ignored entirely: filtering them out of the submission map changes
nothing. -/
theorem calculatePlacements_one_per_player (players : List Player)
    (subs : List (String × Submission))
    (hpn : (players.map Player.visibleId).Nodup)
    (hsn : (subs.map Prod.fst).Nodup) :
    (∀ p ∈ players,
      ((calculatePlacements players subs).1).countP
        (fun r => r.visibleId == p.visibleId) = 1) ∧
    (∀ r ∈ (calculatePlacements players subs).1, ∃ p ∈ players, r.visibleId = p.visibleId) ∧
    calculatePlacements players subs
      = calculatePlacements players
          (subs.filter (fun pr => (findPlayer players pr.1).isSome)) := by
  have hcp := calculatePlacements_eq players subs
  have hres := congrArg Prod.fst hcp
  have hperm : List.Perm (List.insertionSort entryGE (collectValid players subs))
      (collectValid players subs) :=
    List.perm_insertionSort entryGE (collectValid players subs)
  have hvnd : ((collectValid players subs).map VEntry.visibleId).Nodup :=
    List.Nodup.sublist (collectValid_ids_sublist players subs) hsn
  have hsnd : ((List.insertionSort entryGE (collectValid players subs)).map
      VEntry.visibleId).Nodup := ((hperm.map VEntry.visibleId).nodup_iff).mpr hvnd
  have hpids := foldl_update_map_ids
    (addPts (List.insertionSort entryGE (collectValid players subs))) (fun e q => rfl)
    (List.insertionSort entryGE (collectValid players subs)) players
  have hsnd2 : (((List.insertionSort entryGE (collectValid players subs)).foldl
      (fun ps e => updatePlayer e.visibleId
        (addPts (List.insertionSort entryGE (collectValid players subs)) e) ps)
      players).map Player.visibleId).Nodup := by
    rw [hpids]
    exact hpn
  refine ⟨?_, ?_, (calculatePlacements_orphans players subs).symm⟩
  · intro p hp
    rw [hres]
    by_cases hex : ∃ e ∈ collectValid players subs, e.visibleId = p.visibleId
    · obtain ⟨e, he, hei⟩ := hex
      have hes : e ∈ List.insertionSort entryGE (collectValid players subs) :=
        hperm.mem_iff.mpr he
      have hcnt1 : ((List.insertionSort entryGE (collectValid players subs)).map
          (rankedResult (List.insertionSort entryGE (collectValid players subs)))).countP
          (fun r => r.visibleId == p.visibleId) = 1 := by
        rw [List.countP_map]
        have h1 := countP_eq_one_of_nodup_ids
          (List.insertionSort entryGE (collectValid players subs)) hsnd e hes
        rw [hei] at h1
        exact h1
      have hany : ((List.insertionSort entryGE (collectValid players subs)).map
          (rankedResult (List.insertionSort entryGE (collectValid players subs)))).any
          (fun r => r.visibleId == p.visibleId) = true := by
        rw [List.any_eq_true]
        refine ⟨rankedResult (List.insertionSort entryGE (collectValid players subs)) e,
          List.mem_map_of_mem _ hes, ?_⟩
        show (e.visibleId == p.visibleId) = true
        rw [hei, beq_self_eq_true]
      exact (addNonRanked_countP_of_any subs p.visibleId _ _ hany).trans hcnt1
    · push_neg at hex
      have hany0 : ((List.insertionSort entryGE (collectValid players subs)).map
          (rankedResult (List.insertionSort entryGE (collectValid players subs)))).any
          (fun r => r.visibleId == p.visibleId) = false := by
        cases hx : ((List.insertionSort entryGE (collectValid players subs)).map
            (rankedResult (List.insertionSort entryGE (collectValid players subs)))).any
            (fun r => r.visibleId == p.visibleId) with
        | false => rfl
        | true =>
          exfalso
          obtain ⟨r, hr, hcon⟩ := List.any_eq_true.mp hx
          obtain ⟨e2, he2, hre⟩ := List.mem_map.mp hr
          rw [beq_iff_eq] at hcon
          rw [← hre] at hcon
          exact hex e2 (hperm.mem_iff.mp he2) hcon
      have hqex : ∃ q ∈ (List.insertionSort entryGE (collectValid players subs)).foldl
          (fun ps e => updatePlayer e.visibleId
            (addPts (List.insertionSort entryGE (collectValid players subs)) e) ps)
          players, q.visibleId = p.visibleId := by
        have hmem : p.visibleId ∈
            ((List.insertionSort entryGE (collectValid players subs)).foldl
              (fun ps e => updatePlayer e.visibleId
                (addPts (List.insertionSort entryGE (collectValid players subs)) e) ps)
              players).map Player.visibleId := by
          rw [hpids]
          exact List.mem_map_of_mem Player.visibleId hp
        obtain ⟨q, hq, hqid⟩ := List.mem_map.mp hmem
        exact ⟨q, hq, hqid⟩
      exact addNonRanked_countP_of_nodup subs p.visibleId _ _ hsnd2 hany0 hqex
  · intro r hr
    rw [hres] at hr
    rcases addNonRanked_mem subs _ _ r hr with hrk | ⟨q2, hq2, hreq⟩
    · obtain ⟨e2, he2, hre⟩ := List.mem_map.mp hrk
      obtain ⟨pl, hpl, hplid⟩ := collectValid_id_mem players subs e2 (hperm.mem_iff.mp he2)
      refine ⟨pl, hpl, ?_⟩
      rw [← hre]
      exact hplid.symm
    · have hmem : q2.visibleId ∈ players.map Player.visibleId := by
        rw [← hpids]
        exact List.mem_map_of_mem Player.visibleId hq2
      obtain ⟨pl, hpl, hplid⟩ := List.mem_map.mp hmem
      refine ⟨pl, hpl, ?_⟩
      rw [hreq, mkNonRanked_visibleId]
      exact hplid.symm

theorem calculatePlacements_one_per_player_witness :
    (playersC10.map Player.visibleId).Nodup ∧ (subsC10.map Prod.fst).Nodup ∧
    ((∀ p ∈ playersC10,
      ((calculatePlacements playersC10 subsC10).1).countP
        (fun r => r.visibleId == p.visibleId) = 1) ∧
    (∀ r ∈ (calculatePlacements playersC10 subsC10).1,
      ∃ p ∈ playersC10, r.visibleId = p.visibleId) ∧
    calculatePlacements playersC10 subsC10
      = calculatePlacements playersC10
          (subsC10.filter (fun pr => (findPlayer playersC10 pr.1).isSome))) :=
  ⟨by decide, by decide,
    calculatePlacements_one_per_player playersC10 subsC10 (by decide) (by decide)⟩

/-! ## Claims C2 and C8: submission storage and bot negotiation -/

theorem lookupAssoc_setAssoc_self {α : Type} (k : String) (v : α) :
    ∀ l : List (String × α), lookupAssoc (setAssoc k v l) k = some v := by
  intro l
  induction l with
  | nil =>
    unfold setAssoc lookupAssoc
    simp only [List.find?, beq_self_eq_true]
    rfl
  | cons p rest ih =>
    obtain ⟨k2, v2⟩ := p
    unfold setAssoc
    cases hx : (k2 == k) with
    | true =>
      simp only [if_true]
      unfold lookupAssoc
      simp only [List.find?, hx]
      rfl
    | false =>
      simp only [Bool.false_eq_true, if_false]
      unfold lookupAssoc at ih ⊢
      simp only [List.find?, hx]
      exact ih

theorem revealResults_playerSubmissions (lobby : Lobby) :
    (revealResults lobby).playerSubmissions = lobby.playerSubmissions := by
  unfold revealResults
  split
  · rfl
  · rfl

theorem botNegotiate_sound (req : String) (validate : List Char → List RefId → VRes)
    (oracle : Nat → Option (List Char × List RefId)) :
    ∀ (remaining attempts : Nat) (v : VRes),
      (botNegotiate req validate oracle remaining attempts).1 = some v →
      v.isValid = true ∧ ∃ n c, oracle n = some c ∧ v = validate c.1 c.2 := by
  intro remaining
  induction remaining with
  | zero =>
    intro attempts v h
    exact Option.noConfusion h
  | succ rem ih =>
    intro attempts v h
    unfold botNegotiate at h
    cases ho : oracle (attempts + 1) with
    | none =>
      simp only [ho] at h
      exact ih (attempts + 1) v h
    | some c =>
      simp only [ho] at h
      by_cases hv : (validate c.1 c.2).isValid = true
      · rw [if_pos hv] at h
        have h2 : some (validate c.1 c.2) = some v := h
        have h3 : validate c.1 c.2 = v := Option.some.inj h2
        refine ⟨by rw [← h3]; exact hv, attempts + 1, c, ho, h3.symm⟩
      · rw [if_neg hv] at h
        exact ih (attempts + 1) v h

/-- **C2 (amended).** What is really stored per submission: a human
`player:submitWord` stores the client-supplied word, score, breakdown and
validity flag verbatim (only the player letters and timestamp are added
server-side); a bot submission is accepted only after `botNegotiate`
returns a verdict produced by the server-side validator on an oracle
proposal, and `submitBotWord` stores that server-computed word, score and
breakdown with `isValid := true`. -/
theorem submission_storage_amended (lobby : Lobby) (id : String) (d : ClientSubmission)
    (now : Int) (player : Player)
    (hp : findPlayer lobby.players id = some player)
    (hrev : lobby.revealed = false) :
    (submitWordHandler lobby id d now).2.accepted = true ∧
    lookupAssoc (submitWordHandler lobby id d now).1.playerSubmissions id
      = some ⟨d.word, d.score, d.breakdown, d.isValid, player.dice.flatMap (·.letter), now⟩ ∧
    (∀ (req : String) (validate : List Char → List RefId → VRes)
        (oracle : Nat → Option (List Char × List RefId)) (remaining attempts : Nat)
        (v : VRes),
      (botNegotiate req validate oracle remaining attempts).1 = some v →
      v.isValid = true ∧ ∃ n c, oracle n = some c ∧ v = validate c.1 c.2) ∧
    (∀ (lobby2 : Lobby) (bot : Player) (w : List Char) (sc : Int) (br : String) (t : Int),
      lobby2.revealed = false →
      lookupAssoc (submitBotWord lobby2 bot w sc br t).1.playerSubmissions bot.visibleId
        = some ⟨w, sc, br, true, bot.dice.flatMap (·.letter), t⟩) ∧
    (∀ (dict : List (List Char)) (lobby2 : Lobby) (bot : Player)
        (oracle : Nat → Option (List Char × List RefId)) (t : Int) (m : Modifier)
        (w : List Char) (sc : Int) (br : String),
      lobby2.revealed = false → lobby2.modifier = some m →
      (botNegotiate (generateBotWordRequest lobby2.communityDice bot.dice m)
        (validateAndScoreBotWord dict lobby2.communityDice bot.dice m) oracle
        (botRetriesOrDefault bot) 0).1 = some (VRes.valid w sc br) →
      scheduleBotRun dict lobby2 bot oracle t = (submitBotWord lobby2 bot w sc br t).1) := by
  refine ⟨?_, ?_, botNegotiate_sound, ?_, ?_⟩
  · unfold submitWordHandler
    rw [hp]
    simp only [hrev, Bool.false_eq_true, if_false]
  · unfold submitWordHandler
    rw [hp]
    simp only [hrev, Bool.false_eq_true, if_false]
    split
    · split
      · rw [revealResults_playerSubmissions]
        exact lookupAssoc_setAssoc_self _ _ _
      · exact lookupAssoc_setAssoc_self _ _ _
    · split
      · rw [revealResults_playerSubmissions]
        exact lookupAssoc_setAssoc_self _ _ _
      · exact lookupAssoc_setAssoc_self _ _ _
  · intro lobby2 bot w sc br t hrev2
    unfold submitBotWord
    simp only [hrev2, Bool.false_eq_true, if_false]
    split
    · split
      · rw [revealResults_playerSubmissions]
        exact lookupAssoc_setAssoc_self _ _ _
      · exact lookupAssoc_setAssoc_self _ _ _
    · split
      · rw [revealResults_playerSubmissions]
        exact lookupAssoc_setAssoc_self _ _ _
      · exact lookupAssoc_setAssoc_self _ _ _
  · intro dict lobby2 bot oracle t m w sc br hrev2 hmod hneg
    unfold scheduleBotRun
    simp only [hrev2, Bool.false_eq_true, if_false, hmod, hneg]

theorem submission_storage_amended_witness :
    findPlayer lobbyC1.players "A" = some (mkHuman "A") ∧ lobbyC1.revealed = false ∧
    ((submitWordHandler lobbyC1 "A" ⟨['H', 'I'], 5, "", true⟩ 42).2.accepted = true ∧
    lookupAssoc (submitWordHandler lobbyC1 "A" ⟨['H', 'I'], 5, "", true⟩ 42).1.playerSubmissions
        "A" = some ⟨['H', 'I'], 5, "", true, (mkHuman "A").dice.flatMap (·.letter), 42⟩ ∧
    (∀ (req : String) (validate : List Char → List RefId → VRes)
        (oracle : Nat → Option (List Char × List RefId)) (remaining attempts : Nat)
        (v : VRes),
      (botNegotiate req validate oracle remaining attempts).1 = some v →
      v.isValid = true ∧ ∃ n c, oracle n = some c ∧ v = validate c.1 c.2) ∧
    (∀ (lobby2 : Lobby) (bot : Player) (w : List Char) (sc : Int) (br : String) (t : Int),
      lobby2.revealed = false →
      lookupAssoc (submitBotWord lobby2 bot w sc br t).1.playerSubmissions bot.visibleId
        = some ⟨w, sc, br, true, bot.dice.flatMap (·.letter), t⟩) ∧
    (∀ (dict : List (List Char)) (lobby2 : Lobby) (bot : Player)
        (oracle : Nat → Option (List Char × List RefId)) (t : Int) (m : Modifier)
        (w : List Char) (sc : Int) (br : String),
      lobby2.revealed = false → lobby2.modifier = some m →
      (botNegotiate (generateBotWordRequest lobby2.communityDice bot.dice m)
        (validateAndScoreBotWord dict lobby2.communityDice bot.dice m) oracle
        (botRetriesOrDefault bot) 0).1 = some (VRes.valid w sc br) →
      scheduleBotRun dict lobby2 bot oracle t = (submitBotWord lobby2 bot w sc br t).1)) :=
  ⟨by decide, rfl,
    submission_storage_amended lobbyC1 "A" ⟨['H', 'I'], 5, "", true⟩ 42 (mkHuman "A")
      (by decide) rfl⟩

/-- **C8 (amended).** The bot negotiation makes at most `remaining` further
attempts (so at most `botRetries || 3` in total, 3 by default); every
attempt of the transcript carries the one fixed request — the prompt is
never extended with prior rejections — and every parsed proposal's verdict
is exactly the server-side validator's; and when no candidate is accepted
the session is left unchanged, so the bot simply has no submission. -/
theorem bot_negotiation_amended (req : String) (validate : List Char → List RefId → VRes)
    (oracle : Nat → Option (List Char × List RefId)) :
    (∀ remaining attempts : Nat,
      (botNegotiate req validate oracle remaining attempts).2.1 ≤ attempts + remaining ∧
      (botNegotiate req validate oracle remaining attempts).2.2.length ≤ remaining) ∧
    (∀ p : Player, p.botRetries = none → botRetriesOrDefault p = 3) ∧
    (∀ (remaining attempts : Nat) (a : BotAttempt),
      a ∈ (botNegotiate req validate oracle remaining attempts).2.2 →
      a.request = req ∧ ∀ c, a.proposal = some c → a.verdict = some (validate c.1 c.2)) ∧
    (∀ (dict : List (List Char)) (lobby : Lobby) (bot : Player) (t : Int),
      (∀ m : Modifier, lobby.modifier = some m →
        (botNegotiate (generateBotWordRequest lobby.communityDice bot.dice m)
          (validateAndScoreBotWord dict lobby.communityDice bot.dice m) oracle
          (botRetriesOrDefault bot) 0).1 = none) →
      scheduleBotRun dict lobby bot oracle t = lobby) := by
  refine ⟨?_, ?_, ?_, ?_⟩
  · intro remaining
    induction remaining with
    | zero =>
      intro attempts
      exact ⟨Nat.le_refl _, Nat.le_refl _⟩
    | succ rem ih =>
      intro attempts
      unfold botNegotiate
      cases ho : oracle (attempts + 1) with
      | none =>
        simp only []
        obtain ⟨h1, h2⟩ := ih (attempts + 1)
        constructor
        · show (botNegotiate req validate oracle rem (attempts + 1)).2.1 ≤ attempts + (rem + 1)
          omega
        · show (botNegotiate req validate oracle rem (attempts + 1)).2.2.length + 1 ≤ rem + 1
          omega
      | some c =>
        simp only []
        by_cases hv : (validate c.1 c.2).isValid = true
        · rw [if_pos hv]
          refine ⟨?_, ?_⟩
          · show attempts + 1 ≤ attempts + (rem + 1)
            omega
          · show 1 ≤ rem + 1
            omega
        · rw [if_neg hv]
          obtain ⟨h1, h2⟩ := ih (attempts + 1)
          constructor
          · show (botNegotiate req validate oracle rem (attempts + 1)).2.1 ≤ attempts + (rem + 1)
            omega
          · show (botNegotiate req validate oracle rem (attempts + 1)).2.2.length + 1 ≤ rem + 1
            omega
  · intro p hb
    unfold botRetriesOrDefault
    rw [hb]
  · intro remaining
    induction remaining with
    | zero =>
      intro attempts a ha
      exact absurd ha (List.not_mem_nil a)
    | succ rem ih =>
      intro attempts a ha
      unfold botNegotiate at ha
      cases ho : oracle (attempts + 1) with
      | none =>
        simp only [ho] at ha
        rcases List.mem_cons.mp ha with h1 | h2
        · subst h1
          exact ⟨rfl, fun c hc => Option.noConfusion hc⟩
        · exact ih (attempts + 1) a h2
      | some c =>
        simp only [ho] at ha
        by_cases hv : (validate c.1 c.2).isValid = true
        · rw [if_pos hv] at ha
          rcases List.mem_cons.mp ha with h1 | h2
          · subst h1
            refine ⟨rfl, fun c2 hc2 => ?_⟩
            have hcc : c = c2 := Option.some.inj hc2
            rw [← hcc]
          · exact absurd h2 (List.not_mem_nil a)
        · rw [if_neg hv] at ha
          rcases List.mem_cons.mp ha with h1 | h2
          · subst h1
            refine ⟨rfl, fun c2 hc2 => ?_⟩
            have hcc : c = c2 := Option.some.inj hc2
            rw [← hcc]
          · exact ih (attempts + 1) a h2
  · intro dict lobby bot t hnone
    unfold scheduleBotRun
    split
    · rfl
    · cases hm : lobby.modifier with
      | none => rfl
      | some m =>
        have h := hnone m hm
        simp only [h]

set_option maxRecDepth 100000 in
set_option maxHeartbeats 1000000 in
/-- **C8 (counterexample).** The claim says each retry's request includes
the accumulated prior rejected candidates and their reasons.  In the
session below the first candidate "ZZ" is rejected ("not in dictionary"),
yet all three attempts carry the identical request, which does not even
contain the letter Z of the rejected candidate; the prompt is a function
of the dice and modifier alone. -/
theorem bot_retry_feedback_cex :
    (botNegotiate (generateBotWordRequest cdC8 pdC8 modC8)
      (validateAndScoreBotWord dictC8 cdC8 pdC8 modC8) oracleC8 3 0).1 = none ∧
    (botNegotiate (generateBotWordRequest cdC8 pdC8 modC8)
      (validateAndScoreBotWord dictC8 cdC8 pdC8 modC8) oracleC8 3 0).2.1 = 3 ∧
    ((botNegotiate (generateBotWordRequest cdC8 pdC8 modC8)
      (validateAndScoreBotWord dictC8 cdC8 pdC8 modC8) oracleC8 3 0).2.2.map
        BotAttempt.verdict)
      = [some (VRes.invalid "not in dictionary"), none, none] ∧
    ((botNegotiate (generateBotWordRequest cdC8 pdC8 modC8)
      (validateAndScoreBotWord dictC8 cdC8 pdC8 modC8) oracleC8 3 0).2.2.map
        BotAttempt.request)
      = [generateBotWordRequest cdC8 pdC8 modC8, generateBotWordRequest cdC8 pdC8 modC8,
          generateBotWordRequest cdC8 pdC8 modC8] ∧
    ¬ ('Z' ∈ (generateBotWordRequest cdC8 pdC8 modC8).data) := by
  refine ⟨rfl, rfl, rfl, rfl, by decide⟩

end ScrabbleHoldem

